import Mathlib

/-!
Verification of the recode-engine core: a shallow embedding, in Lean, of the
grammar validator (`logic.py`), the recipe evaluator (`recipe.py`), the
processing-step scheduler (`step.py` / `processor.py`) and the two-pass name
allocator (`utils.py`), together with theorems settling the specified
properties of these components.

Python values are embedded as the inductive type `Value`; Python exceptions
are embedded as `Except PyErr`; machine floats are embedded as exact
rationals (the code performs no float arithmetic whose rounding any claim
depends on); Python `set` objects are embedded as duplicate-free lists kept
in first-insertion order (Python set iteration order is deterministic but
unspecified; every comparison on sets below is order-insensitive).
-/

/-- Exception kinds raised by the embedded code. -/
inductive PyErr where
  | assertionError
  | typeError
  | keyError
  | valueError
  | indexError
  | stopIteration
  | attributeError
  | runtimeError
deriving DecidableEq, Repr

/-- A Python value: `None`, `bool`, `int`, `float` (as an exact rational),
`str`, `list`, `dict` (string-keyed, insertion ordered) or `set`. -/
inductive Value where
  | vNull
  | vBool (b : Bool)
  | vInt (n : Int)
  | vFloat (q : ℚ)
  | vStr (s : String)
  | vList (l : List Value)
  | vDict (es : List (String × Value))
  | vSet (l : List Value)

open Value

/-- Numeric view: Python compares `bool`, `int` and `float` by value
(`True == 1`, `1 == 1.0`). -/
def toRat : Value → Option ℚ
  | vBool b => some (if b then 1 else 0)
  | vInt n => some (n : ℚ)
  | vFloat q => some q
  | _ => none

/-- `isinstance(v, (str, int, float, bool))`: the terminal types of the
validator (`EXPECTED_TERMINAL_TYPES`). -/
def isTerminalV : Value → Bool
  | vBool _ | vInt _ | vFloat _ | vStr _ => true
  | _ => false

/-- `is_a_collection` from `utils.py`: a `Sequence` that is not a string.
Of the embedded values only Python lists qualify (`dict` and `set` are not
sequences). -/
def is_a_collection : Value → Bool
  | vList _ => true
  | _ => false

/-- `isinstance(v, dict)`. -/
def isDictV : Value → Bool
  | vDict _ => true
  | _ => false

/-- Python truthiness (`if v:`). -/
def pyTruthy : Value → Bool
  | vNull => false
  | vBool b => b
  | vInt n => n ≠ 0
  | vFloat q => q ≠ 0
  | vStr s => s ≠ ""
  | vList l => ¬ l.isEmpty
  | vDict es => ¬ es.isEmpty
  | vSet l => ¬ l.isEmpty

/-- Python hashability: scalars and `None` are hashable, containers are not
(no tuples or frozensets occur in the embedded code). -/
def isHashable : Value → Bool
  | vNull | vBool _ | vInt _ | vFloat _ | vStr _ => true
  | _ => false

/-- Python `==` on scalar left operands: numeric kinds compare by value,
strings by content, `None` only to `None`; a scalar never equals a
container. Containers as left operands are handled by `pyEq`. -/
def scalarEq : Value → Value → Bool
  | vStr s, vStr t => s = t
  | vStr _, _ => false
  | vNull, vNull => true
  | vNull, _ => false
  | x, y =>
    match toRat x, toRat y with
    | some a, some b => a = b
    | _, _ => false

/-- First component of a dict lookup: Python `d[k]` / `k in d` on the
string-keyed dicts of this code base. -/
def dictLookup (k : String) : List (String × Value) → Option Value
  | [] => none
  | (k', v) :: tl => if k' = k then some v else dictLookup k tl

/-- Membership of a scalar in an embedded set (set elements are always
hashable scalars in this code base, so `scalarEq` decides `==`). -/
def setMem (x : Value) (l : List Value) : Bool :=
  l.any (fun y => scalarEq x y)

/-- One inclusion of Python set equality. -/
def setSubset (a b : List Value) : Bool :=
  a.all (fun x => setMem x b)

mutual
/-- Python `==`. Lists compare pointwise, dicts compare as maps
(same key set, equal values), sets compare by double inclusion. -/
def pyEq : Value → Value → Bool
  | vList a, y =>
    match y with
    | vList b => pyEqList a b
    | _ => false
  | vDict a, y =>
    match y with
    | vDict b => pyEqDictFwd a b && b.all (fun kv => (dictLookup kv.1 a).isSome)
    | _ => false
  | vSet a, y =>
    match y with
    | vSet b => setSubset a b && setSubset b a
    | _ => false
  | x, y => scalarEq x y

/-- Pointwise equality of Python lists. -/
def pyEqList : List Value → List Value → Bool
  | [], b => b.isEmpty
  | x :: xs, b =>
    match b with
    | [] => false
    | y :: ys => pyEq x y && pyEqList xs ys

/-- Every entry of the first dict is present and equal in the second. -/
def pyEqDictFwd : List (String × Value) → List (String × Value) → Bool
  | [], _ => true
  | (k, v) :: tl, b =>
    (match dictLookup k b with
     | some u => pyEq v u
     | none => false) && pyEqDictFwd tl b
end

/-- Membership in a Python container as used by the validator
(`item in valid_items` where `valid_items` is a set or a list). -/
def pyMem (x : Value) (container : Value) : Bool :=
  match container with
  | vList l => l.any (fun y => pyEq x y)
  | vSet l => l.any (fun y => pyEq x y)
  | _ => false

/-- `set(...)` construction: insert an element, erroring on unhashable
elements, skipping duplicates (first occurrence is kept). -/
def pySetInsert (acc : List Value) (x : Value) : Except PyErr (List Value) :=
  if isHashable x then
    .ok (if setMem x acc then acc else acc ++ [x])
  else
    .error .typeError

/-- `set(iterable)` over a list of values. -/
def pySetOfAux (acc : List Value) : List Value → Except PyErr (List Value)
  | [] => .ok acc
  | x :: xs => do pySetOfAux (← pySetInsert acc x) xs

/-- `set(iterable)` over a list of values. -/
def pySetOf (l : List Value) : Except PyErr (List Value) :=
  pySetOfAux [] l

/-! ## The value parser (`recipe.py`: `duration_MI_to_s`, `weak_parse`,
`weak_leaf_parse`).

Core `String` functions such as `String.splitOn` and `String.trim` are
position-based and do not reduce inside the kernel, so the few string
operations the source needs are re-implemented structurally over the
character list. -/

/-- Python `s.split(sep)` with an explicit one-character separator:
consecutive separators yield empty fields and `"".split(sep) == [""]`. -/
def pySplitAux (sep : Char) (cur : List Char) : List Char → List String
  | [] => [String.mk cur.reverse]
  | c :: cs =>
    if c = sep then String.mk cur.reverse :: pySplitAux sep [] cs
    else pySplitAux sep (c :: cur) cs

/-- Python `s.split(sep)` with an explicit one-character separator. -/
def pySplit (sep : Char) (s : String) : List String :=
  pySplitAux sep [] s.toList

/-- Strip surrounding whitespace from a character list. -/
def stripWs (cs : List Char) : List Char :=
  ((cs.dropWhile Char.isWhitespace).reverse.dropWhile Char.isWhitespace).reverse

/-- Read a maximal run of decimal digits, returning value, digit count and
the rest of the input. -/
def readDigits (acc cnt : Nat) : List Char → Nat × Nat × List Char
  | [] => (acc, cnt, [])
  | c :: cs =>
    if c.isDigit then readDigits (acc * 10 + (c.toNat - 48)) (cnt + 1) cs
    else (acc, cnt, c :: cs)

/-- Python `int(str)`: surrounding whitespace, an optional sign and a
non-empty digit run; anything else raises `ValueError`. -/
def pyParseInt (s : String) : Except PyErr Int :=
  let core : List Char → Except PyErr Int := fun cs =>
    match readDigits 0 0 cs with
    | (v, cnt, []) => if cnt = 0 then .error .valueError else .ok (v : Int)
    | _ => .error .valueError
  match stripWs s.toList with
  | '+' :: rest => core rest
  | '-' :: rest => do .ok (-(← core rest))
  | rest => core rest

/-- Integer power of ten as a rational. -/
def qpow10 (e : Int) : ℚ :=
  if 0 ≤ e then (10 : ℚ) ^ e.toNat else 1 / (10 : ℚ) ^ (-e).toNat

/-- Python `float(str)` on finite decimal literals: surrounding whitespace,
optional sign, `digits[.digits]` or `.digits`, optional exponent part;
anything else raises `ValueError`. -/
def pyParseFloat (s : String) : Except PyErr ℚ :=
  let afterSign : List Char → Except PyErr ℚ := fun cs =>
    let (ip, ic, cs1) := readDigits 0 0 cs
    let fracRead : Nat × Nat × List Char :=
      match cs1 with
      | '.' :: r => readDigits 0 0 r
      | r => (0, 0, r)
    match fracRead with
    | (fp, fc, cs2) =>
      if ic + fc = 0 then .error .valueError
      else
        let mant : ℚ := (ip : ℚ) + (fp : ℚ) / (10 : ℚ) ^ fc
        match cs2 with
        | [] => .ok mant
        | 'e' :: r | 'E' :: r =>
          let signedExp : Except PyErr Int :=
            let expCore : List Char → Except PyErr Int := fun r2 =>
              match readDigits 0 0 r2 with
              | (ev, ec, []) => if ec = 0 then .error .valueError else .ok (ev : Int)
              | _ => .error .valueError
            match r with
            | '+' :: r2 => expCore r2
            | '-' :: r2 => do .ok (-(← expCore r2))
            | r2 => expCore r2
          do .ok (mant * qpow10 (← signedExp))
        | _ => .error .valueError
  match stripWs s.toList with
  | '+' :: rest => afterSign rest
  | '-' :: rest => do .ok (-(← afterSign rest))
  | rest => afterSign rest

/-- `MI_DURATION_QUALIFIERS` lookup: `{"h": 3600, "min": 60, "s": 1}`;
a missing qualifier raises `KeyError` (which `weak_parse` does not catch). -/
def durationQualifier : String → Except PyErr Int
  | "h" => .ok 3600
  | "min" => .ok 60
  | "s" => .ok 1
  | _ => .error .keyError

/-- The token-pair loop of `duration_MI_to_s`: for each pair,
`int(tokens[j])` is evaluated before the qualifier lookup. -/
def durationPairs : List String → Except PyErr Int
  | [] => .ok 0
  | n :: u :: rest => do
    let k ← pyParseInt n
    let f ← durationQualifier u
    let r ← durationPairs rest
    .ok (k * f + r)
  | [_] => .error .assertionError

/-- `duration_MI_to_s`: split on single spaces, require an even token count
(`assertTrue`), sum `int(token) * qualifier` over the pairs. -/
def duration_MI_to_s (s : String) : Except PyErr Int :=
  let tokens := pySplit ' ' s
  if tokens.length % 2 = 0 then durationPairs tokens else .error .assertionError

/-- `HUMAN_UNIT_FACTOR` lookup on the upper-cased last character. -/
def humanUnitFactor : Char → Option Int
  | 'G' => some 1000000000
  | 'M' => some 1000000
  | 'K' => some 1000
  | _ => none

/-- `weak_parse`: non-strings are returned unchanged; strings are first
tried as MediaInfo durations (catching only `AssertionError`/`ValueError`,
so a `KeyError` from an unknown qualifier propagates); then, if the last
character is a human unit (`s[-1]` raises `IndexError` on the empty
string), the prefix is parsed as `int` and, on `ValueError`, as `float`
(whose failure propagates); otherwise the string itself is returned. -/
def weak_parse_str (s : String) : Except PyErr Value :=
  match duration_MI_to_s s with
  | .ok n => .ok (vInt n)
  | .error e =>
    if e = .assertionError ∨ e = .valueError then
      match s.toList.getLast? with
      | none => .error .indexError
      | some last =>
        match humanUnitFactor last.toUpper with
        | some factor =>
          (match pyParseInt (String.mk s.toList.dropLast) with
           | .ok n => .ok (vInt (n * factor))
           | .error _ =>
             match pyParseFloat (String.mk s.toList.dropLast) with
             | .ok q => .ok (vFloat (q * (factor : ℚ)))
             | .error e2 => .error e2)
        | none => .ok (vStr s)
    else .error e

/-- `weak_parse` dispatch: non-strings are returned as-is. -/
def weak_parse : Value → Except PyErr Value
  | vStr s => weak_parse_str s
  | v => .ok v

mutual
/-- `weak_leaf_parse`: apply `weak_parse` to every scalar leaf, preserving
dict and list structure (a raised exception propagates). -/
def weak_leaf_parse : Value → Except PyErr Value
  | vDict es => do .ok (vDict (← weak_leaf_parse_dict es))
  | vList l => do .ok (vList (← weak_leaf_parse_list l))
  | vStr s => weak_parse (vStr s)
  | v => .ok v

/-- `weak_leaf_parse` over the elements of a list. -/
def weak_leaf_parse_list : List Value → Except PyErr (List Value)
  | [] => .ok []
  | x :: xs => do .ok ((← weak_leaf_parse x) :: (← weak_leaf_parse_list xs))

/-- `weak_leaf_parse` over the values of a dict. -/
def weak_leaf_parse_dict : List (String × Value) → Except PyErr (List (String × Value))
  | [] => .ok []
  | (k, v) :: tl => do .ok ((k, ← weak_leaf_parse v) :: (← weak_leaf_parse_dict tl))
end

/-! ## Two-pass stats-file name allocation (`utils.py`) -/

/-- `ffmpeg2pass_file_names`: the two files generated during a two-pass
encode for a given stats base name. -/
def ffmpeg2pass_file_names (name : String) : String × String :=
  (name ++ "-0.log", name ++ "-0.log.mbtree")

/-- `get_valid_ffmpeg2pass_name`, evaluated against the listing `fs` of
the current working directory.  In the source the body is `while True:`
around a `for` over the two file names derived from `f"{base_name}_{idx}"`
with `idx = 0`; the `continue` statements only advance that inner `for`,
so the `return f"{base_name}_{idx}"` that follows the `for` is always
reached during the first `while` iteration, after `idx` has been
incremented once for each of the two index-0 file names that exists.
No re-check of the file names at the final `idx` ever happens. -/
def get_valid_ffmpeg2pass_name (fs : List String) (base_name : String) : String :=
  let names := ffmpeg2pass_file_names (base_name ++ "_0")
  let idx1 : Nat := if fs.contains names.1 then 1 else 0
  let idx2 : Nat := if fs.contains names.2 then idx1 + 1 else idx1
  base_name ++ "_" ++ toString idx2

/-- The directory listing of the C6 failing input: the index-0 log and the
index-1 log both exist (no `.mbtree` files). -/
def c6_fs : List String := ["stream0_passlog_0-0.log", "stream0_passlog_1-0.log"]

/-! ## Processing-step construction (`step.py`: `ProcessingStep.__init__`) -/

/-- The working-directory collaborator: `_cwd` is an opaque path token. -/
structure WorkingDirectory where
  cwd : Int

/-- `ProcessingStep.__init__(parameters, wd=None)`: stores the two fields,
then evaluates `self.wd._cwd == Path(".").resolve()` as the argument of
`assertTrue` — when `wd` is `None` this attribute access raises
`AttributeError` before `assertTrue` (and hence before any verification)
runs — then calls the subclass `verify` inside `try`, re-raising failures
as `ValueError("Parameter validation failed")`. -/
def ProcessingStep_init (verify : List (String × Value) → Except PyErr Unit)
    (parameters : List (String × Value)) (wd : Option WorkingDirectory)
    (currentCwd : Int) : Except PyErr (List (String × Value) × WorkingDirectory) :=
  match wd with
  | none => .error .attributeError
  | some w =>
    if w.cwd = currentCwd then
      match verify parameters with
      | .ok _ => .ok (parameters, w)
      | .error _ => .error .valueError
    else .error .assertionError

/-! ## The sprint scheduler (`step.py`: `ProcessingStep_execute`, of which
`StreamProcessor.process_step` in `processor.py` is a verbatim copy) -/

/-- A processing step, abstracted to what the scheduler observes of it:
`run()` succeeds, and `result` then holds an optional `output_media_file`
(artifacts are numbered here) and the `next_sprint_steps` it spawns. -/
inductive PStep where
  | mk (output : Option ℕ) (next : List PStep)

/-- The `output_media_file` entry of the step's result. -/
def PStep.output : PStep → Option ℕ
  | .mk o _ => o

/-- The `next_sprint_steps` entry of the step's result. -/
def PStep.next : PStep → List PStep
  | .mk _ n => n

mutual
/-- Total number of steps reachable from a step (used as loop fuel). -/
def psize : PStep → ℕ
  | .mk _ n => 1 + psizeL n
/-- Total number of steps reachable from a list of steps. -/
def psizeL : List PStep → ℕ
  | [] => 0
  | s :: rest => psize s + psizeL rest
end

/-- The per-sprint `next_sprint.update(next_sprint_steps)` accumulation:
an absent or empty list is falsy and contributes nothing, which coincides
with appending it. -/
def sprintNext : List PStep → List PStep
  | [] => []
  | s :: rest => s.next ++ sprintNext rest

/-- The per-sprint `output_files.add(output_file)` accumulation (a
media-file handle is always truthy, so every `some` is added). -/
def sprintOutputs : List PStep → Finset ℕ
  | [] => ∅
  | s :: rest =>
    match s.output with
    | some f => insert f (sprintOutputs rest)
    | none => sprintOutputs rest

/-- The scheduler's `while len(current_sprint) > 0` loop, with explicit
fuel (`psizeL` strictly decreases between sprints, so the fuel
`psizeL cur + 1` used by `sprintLoop` always suffices; `sprintLoop_eq`
recovers the fuel-free recurrence).  At the top of an iteration the
output files accumulated by the previous sprint are discarded (the
reset is guarded by `if output_files:` in the source, but resetting an
empty accumulator is also a no-op); then every step of the sprint is
run, its spawned steps are added to the next sprint and its output file
to the accumulator. -/
def sprintLoopFuel : ℕ → List PStep → Finset ℕ → Finset ℕ
  | 0, _, outs => outs
  | fuel + 1, cur, outs =>
    if cur.isEmpty then outs
    else sprintLoopFuel fuel (sprintNext cur) (sprintOutputs cur)

/-- The scheduler loop at adequate fuel. -/
def sprintLoop (cur : List PStep) (outs : Finset ℕ) : Finset ℕ :=
  sprintLoopFuel (psizeL cur + 1) cur outs

/-- `ProcessingStep_execute(base_step)`: runs the sprint loop starting
from `{base_step}` with an empty output accumulator, logs the final
`output_files` — and ends without a `return` statement, so the Python
function returns `None`: the computed accumulator is discarded. -/
def ProcessingStep_execute (base_step : PStep) : Option (Finset ℕ) :=
  (fun _ => (none : Option (Finset ℕ))) (sprintLoop [base_step] ∅)

/-- The sequence of non-empty sprints generated from a starting sprint
(generation `k+1` holds the steps spawned by generation `k`), written
directly from the specification's description of sprints; with fuel as in
`sprintLoopFuel`. -/
def sprintGensFuel : ℕ → List PStep → List (List PStep)
  | 0, _ => []
  | fuel + 1, cur =>
    if cur.isEmpty then [] else cur :: sprintGensFuel fuel (sprintNext cur)

/-- The sequence of non-empty sprints at adequate fuel. -/
def sprintGens (cur : List PStep) : List (List PStep) :=
  sprintGensFuel (psizeL cur + 1) cur

/-- The last non-empty sprint of the run starting at `cur`. -/
def lastSprint (cur : List PStep) : List PStep :=
  (sprintGens cur).getLast?.getD []

/-- The C1 counterexample step graph: the base step emits artifact `1` and
spawns one child; the child emits artifact `2` and spawns nothing. -/
def c1_base : PStep := .mk (some 1) [.mk (some 2) []]

/-! ## Input admissibility and argument resolution (`recipe.py`:
`verify_rule`, `Recipe.validate_input`, `Recipe.load_arguments`) -/

/-- All suffixes of a character list (longest first). -/
def listSuffixes : List Char → List (List Char)
  | [] => [[]]
  | c :: rest => (c :: rest) :: listSuffixes rest

/-- Substring containment, for Python `needle in haystack` on strings. -/
def strContainsSub (hay needle : String) : Bool :=
  (listSuffixes hay.toList).any (fun s => needle.toList.isPrefixOf s)

/-- Python `s.startswith(pre)`. -/
def strStartsWith (s pre : String) : Bool :=
  pre.toList.isPrefixOf s.toList

/-- Python `<` on the value shapes that reach `verify_rule` and
`match_dp_specifier`: numbers compare numerically across int/float/bool,
strings lexicographically; any other pairing raises `TypeError` (the
values compared by these functions are weak-parsed scalars). -/
def pyLt (x y : Value) : Except PyErr Bool :=
  match toRat x, toRat y with
  | some a, some b => .ok (decide (a < b))
  | _, _ =>
    match x, y with
    | vStr s, vStr t => .ok (decide (s < t))
    | _, _ => .error .typeError

/-- Python `x in c`: sets and lists test elementwise equality (probing a
set with an unhashable value raises `TypeError`), a string container
tests substring containment of a string probe, a dict tests key
membership; scalars and `None` are not containers. -/
def pyInE (x c : Value) : Except PyErr Bool :=
  match c with
  | vSet l => if isHashable x then .ok (l.any (fun y => pyEq x y)) else .error .typeError
  | vList l => .ok (l.any (fun y => pyEq x y))
  | vDict es => .ok (es.any (fun kv => pyEq x (vStr kv.1)))
  | vStr t =>
    match x with
    | vStr n => .ok (strContainsSub t n)
    | _ => .error .typeError
  | _ => .error .typeError

/-- `{weak_parse(x) for x in l}`: parse each element and insert into a
set, in iteration order. -/
def weakParseSetAux (acc : List Value) : List Value → Except PyErr (List Value)
  | [] => .ok acc
  | x :: xs => do
    let w ← weak_parse x
    let acc2 ← pySetInsert acc w
    weakParseSetAux acc2 xs

/-- `{weak_parse(x) for x in l}`. -/
def weakParseSet (l : List Value) : Except PyErr (List Value) :=
  weakParseSetAux [] l

/-- `any(r < v for v in elems)` with short-circuit. -/
def anyLtLeft (r : Value) : List Value → Except PyErr Bool
  | [] => .ok false
  | v :: vs => do if (← pyLt r v) then .ok true else anyLtLeft r vs

/-- `any(v < r for v in elems)` with short-circuit. -/
def anyLtRight (r : Value) : List Value → Except PyErr Bool
  | [] => .ok false
  | v :: vs => do if (← pyLt v r) then .ok true else anyLtRight r vs

/-- `any(v in r for v in elems)` with short-circuit. -/
def anyInCont (r : Value) : List Value → Except PyErr Bool
  | [] => .ok false
  | v :: vs => do if (← pyInE v r) then .ok true else anyInCont r vs

/-- `all(v in r for v in elems)` with short-circuit. -/
def allInCont (r : Value) : List Value → Except PyErr Bool
  | [] => .ok true
  | v :: vs => do if (← pyInE v r) then allInCont r vs else .ok false

/-- The specifier loop of `verify_rule`: for each entry of the rule dict
(in insertion order) build `r` — a set of weak-parsed values when the raw
specifier is a set or list, the weak-parsed scalar otherwise — then apply
the `max` / `min` / `blacklist` / `whitelist` checks; the first failing
check returns `False`; `dataIsSet` selects the elementwise forms, with
`dpElems` the elements of the parsed info set and `dpVal` the parsed
info value itself otherwise. -/
def verifyRuleSpecs (dataIsSet : Bool) (dpVal : Value) (dpElems : List Value) :
    List (String × Value) → Except PyErr Bool
  | [] => .ok true
  | (dps, rv) :: rest => do
    let r ← (match rv with
      | vSet l => do .ok (vSet (← weakParseSet l))
      | vList l => do .ok (vSet (← weakParseSet l))
      | _ => weak_parse rv)
    let failMax ← (if dps = "max" then
        if dataIsSet then anyLtLeft r dpElems else pyLt r dpVal
      else .ok false)
    if failMax then .ok false else do
    let failMin ← (if dps = "min" then
        if dataIsSet then anyLtRight r dpElems else pyLt dpVal r
      else .ok false)
    if failMin then .ok false else do
    let failBl ← (if dps = "blacklist" then
        if dataIsSet then anyInCont r dpElems else pyInE dpVal r
      else .ok false)
    if failBl then .ok false else do
    let failWl ← (if dps = "whitelist" then
        if dataIsSet then do .ok (!(← allInCont r dpElems))
        else do .ok (!(← pyInE dpVal r))
      else .ok false)
    if failWl then .ok false else verifyRuleSpecs dataIsSet dpVal dpElems rest

/-- `verify_rule(stream_rule, stream_info)`: assert the rule is a
single-entry dict; if its datapoint is missing from the info, log
"Skipped because missing info" and return `False` (which every call site
treats as invalidating the file); otherwise weak-parse the info value
(elementwise for sets), then either compare a bare scalar specification
for equality or run the specifier loop. -/
def verify_rule (stream_rule stream_info : List (String × Value)) :
    Except PyErr Bool :=
  if stream_rule.length = 1 then
    match stream_rule with
    | [(datapoint, ruleVal)] =>
      (match dictLookup datapoint stream_info with
       | none => .ok false
       | some infoVal =>
         match infoVal with
         | vSet l => do
           let dpSet ← weakParseSet l
           (match ruleVal with
            | vDict specs => verifyRuleSpecs true (vSet dpSet) dpSet specs
            | _ => do .ok (pyEq (← weak_parse ruleVal) (vSet dpSet)))
         | _ => do
           let dpParsed ← weak_parse infoVal
           (match ruleVal with
            | vDict specs => verifyRuleSpecs false dpParsed [] specs
            | _ => do .ok (pyEq (← weak_parse ruleVal) dpParsed)))
    | _ => .error .assertionError
  else .error .assertionError

/-- A probed stream of the candidate media file: ffprobe codec type,
codec name, and width/height (used for video). -/
structure MStream where
  codecType : String
  codec : String
  width : Int
  height : Int

/-- The candidate media-file abstraction `validate_input` reads:
`path.suffix` (without the dot), `format_info` fields, `streams`,
`has_chapters`, and the MediaInfo table returned by `get_base_stats`
(a map from stream labels such as `"Video..."` to data-point maps). -/
structure Media where
  extension : String
  size : Int
  duration : ℚ
  bitrate : Int
  hasChapters : Bool
  streams : List MStream
  mediainfo : List (String × List (String × Value))

/-- `get_MI_streams_info`: the set of `stream_data[datapoint]` over the
MediaInfo entries whose label starts with the given type and that carry
the datapoint. -/
def get_MI_streams_info (mediainfoData : List (String × List (String × Value)))
    (mediainfoType datapoint : String) : Except PyErr (List Value) :=
  pySetOf (mediainfoData.filterMap (fun entry =>
    if strStartsWith entry.1 mediainfoType then dictLookup datapoint entry.2
    else none))

/-- The `StreamType` dispatch of `get_streams_info`: everything that is
not video, audio or subtitle is treated as attachment. -/
def streamTypeOf (stream_type : String) : String :=
  if stream_type = "video" then "video"
  else if stream_type = "audio" then "audio"
  else if stream_type = "subtitle" then "subtitle"
  else "attachment"

/-- `get_streams_info(stream_type, mediainfo_data)`: `nb-streams` and the
codec set for every type; stream size / duration / bitrate sets from
MediaInfo for audio and video; height, width, quality-index and bit-depth
sets for video. -/
def get_streams_info (m : Media) (stream_type : String) :
    Except PyErr (List (String × Value)) := do
  let t := streamTypeOf stream_type
  let relevant := m.streams.filter (fun st => st.codecType = t)
  let codecSet ← pySetOf (relevant.map (fun st => vStr st.codec))
  let base : List (String × Value) :=
    [("nb-streams", vInt relevant.length), ("codec", vSet codecSet)]
  if t = "video" ∨ t = "audio" then do
    let mit := if t = "video" then "Video" else "Audio"
    let sizeS ← get_MI_streams_info m.mediainfo mit "Stream size"
    let durS ← get_MI_streams_info m.mediainfo mit "Duration"
    let brS ← get_MI_streams_info m.mediainfo mit "Bit rate"
    let withAV := base ++
      [("size", vSet sizeS), ("duration", vSet durS), ("bitrate", vSet brS)]
    if t = "video" then do
      let hS ← pySetOf (relevant.map (fun st => vInt st.height))
      let wS ← pySetOf (relevant.map (fun st => vInt st.width))
      let qS ← get_MI_streams_info m.mediainfo "Video" "Bits/(Pixel*Frame)"
      let bdS ← get_MI_streams_info m.mediainfo "Video" "Bit depth"
      .ok (withAV ++ [("height", vSet hS), ("width", vSet wS),
        ("quality-index", vSet qS), ("bit-depth", vSet bdS)])
    else .ok withAV
  else .ok base

/-- The `file_info` dict of `validate_input`. -/
def file_info (m : Media) : List (String × Value) :=
  [("extension", vStr m.extension), ("size", vInt m.size),
   ("duration", vFloat m.duration), ("nb-streams", vInt m.streams.length),
   ("bitrate", vInt m.bitrate), ("has-chapters", vBool m.hasChapters)]

/-- The per-stream-type rule loop of `validate_input`:
`verify_rule({stream_rule: ...}, stream_info)` for each entry; a `False`
verdict rejects the file. -/
def validateStreamRules (info : List (String × Value)) :
    List (String × Value) → Except PyErr Bool
  | [] => .ok true
  | (sr, srv) :: rest => do
    if (← verify_rule [(sr, srv)] info) then validateStreamRules info rest
    else .ok false

/-- The `streams` branch of `validate_input`: build the stream info per
stream type and check its rules. -/
def validateStreamTypes (m : Media) :
    List (String × Value) → Except PyErr Bool
  | [] => .ok true
  | (stream_type, stream_rules) :: rest => do
    let info ← get_streams_info m stream_type
    match stream_rules with
    | vDict rules => do
      if (← validateStreamRules info rules) then validateStreamTypes m rest
      else .ok false
    | _ => .error .typeError

/-- The outer loop of `validate_input` over the input rule entries. -/
def validateInputLoop (m : Media) :
    List (String × Value) → Except PyErr Bool
  | [] => .ok true
  | (key, rule) :: rest => do
    if key = "streams" then
      match rule with
      | vDict streamTypes => do
        if (← validateStreamTypes m streamTypes) then validateInputLoop m rest
        else .ok false
      | _ => .error .attributeError
    else do
      if (← verify_rule [(key, rule)] (file_info m)) then validateInputLoop m rest
      else .ok false

/-- `Recipe.validate_input(media)`: gather MediaInfo data and `file_info`,
then read `self.recipe[KW_RECIPE_ROOT][KW_RECIPE_INPUT]`.  `__init__`
stored the subtree *under* the top-level `"recipe"` key into
`self.recipe` (see `Recipe_init_stores_subtree` below), and the validated
subtree never contains a `"recipe"` key, so this first subscript raises
`KeyError` before any rule is evaluated; the remaining loop is embedded
faithfully above. -/
def validate_input (recipeAttr : List (String × Value)) (m : Media) :
    Except PyErr Bool :=
  match dictLookup "recipe" recipeAttr with
  | none => .error .keyError
  | some recipeNode =>
    match recipeNode with
    | vDict recipeEntries =>
      (match dictLookup "input" recipeEntries with
       | none => .error .keyError
       | some (vDict inputRule) => validateInputLoop m inputRule
       | some _ => .error .attributeError)
    | _ => .error .typeError

/-- The call `verify_rule({stream_rule: spec}, get_streams_info(...))`
as `validate_input`'s streams branch would issue it. -/
def streamRuleCheck (m : Media) (stream_type : String)
    (rule : String × Value) : Except PyErr Bool := do
  verify_rule [rule] (← get_streams_info m stream_type)

/-- `isinstance(arg_value, expected_type)` for the four recipe argument
types (`bool` is a subclass of `int` in Python). -/
def isInstOf (ty : String) (v : Value) : Bool :=
  match ty with
  | "str" => (v matches vStr _)
  | "int" => (v matches vInt _) || (v matches vBool _)
  | "float" => (v matches vFloat _)
  | "bool" => (v matches vBool _)
  | _ => false

/-- `isinstance(value, (int, float))` (`bool` is a subclass of `int`). -/
def numericV : Value → Bool
  | vInt _ | vFloat _ | vBool _ => true
  | _ => false

/-- Truncation toward zero, Python `int(float)`. -/
def ratTrunc (q : ℚ) : Int :=
  if 0 ≤ q then q.floor else q.ceil

/-- Python `str()` of the scalar values (container arguments are not
rendered by any theorem; float rendering goes through the rational's
`toString` and is likewise not relied upon). -/
def pyStrOf : Value → String
  | vStr s => s
  | vInt n => toString n
  | vBool b => if b then "True" else "False"
  | vFloat q => toString q
  | vNull => "None"
  | _ => ""

/-- `expected_type(arg_value)`: the coercion applied when the supplied
argument is not already an instance of the declared type. -/
def pyCast (ty : String) (v : Value) : Except PyErr Value :=
  match ty with
  | "int" =>
    (match v with
     | vStr s => do .ok (vInt (← pyParseInt s))
     | vFloat q => .ok (vInt (ratTrunc q))
     | vInt n => .ok (vInt n)
     | vBool b => .ok (vInt (if b then 1 else 0))
     | _ => .error .typeError)
  | "float" =>
    (match v with
     | vStr s => do .ok (vFloat (← pyParseFloat s))
     | vInt n => .ok (vFloat (n : ℚ))
     | vFloat q => .ok (vFloat q)
     | vBool b => .ok (vFloat (if b then 1 else 0))
     | _ => .error .typeError)
  | "bool" => .ok (vBool (pyTruthy v))
  | "str" => .ok (vStr (pyStrOf v))
  | _ => .error .keyError

/-- `match_dp_specifier(rules, value)`: `min`/`max` fail on non-numeric
values and compare numerically otherwise (a non-numeric bound raises
`TypeError`); `blacklist`/`whitelist` use Python membership. -/
def match_dp_specifier (rules : List (String × Value)) (value : Value) :
    Except PyErr Bool := do
  let failMin ← (match dictLookup "min" rules with
    | some mn => if numericV value then pyLt value mn else .ok true
    | none => .ok false)
  if failMin then .ok false else do
  let failMax ← (match dictLookup "max" rules with
    | some mx => if numericV value then pyLt mx value else .ok true
    | none => .ok false)
  if failMax then .ok false else do
  let failBl ← (match dictLookup "blacklist" rules with
    | some bl => pyInE value bl
    | none => .ok false)
  if failBl then .ok false else do
  let failWl ← (match dictLookup "whitelist" rules with
    | some wl => do .ok (!(← pyInE value wl))
    | none => .ok false)
  if failWl then .ok false else .ok true

/-- `match_actual_argument`: look up the declared type, coerce the value
if needed, check the data-point specifiers; every exception inside the
`try` block is re-raised as `RuntimeError`. -/
def match_actual_argument (argRules : List (String × Value)) (argValue : Value) :
    Except PyErr Value :=
  let inner : Except PyErr Value := do
    let tyName ← (match dictLookup "type" argRules with
      | some (vStr t) =>
        if t = "str" ∨ t = "int" ∨ t = "float" ∨ t = "bool" then .ok t
        else .error .keyError
      | some _ => .error .keyError
      | none => .error .keyError)
    let v2 ← (if isInstOf tyName argValue then .ok argValue else pyCast tyName argValue)
    if (← match_dp_specifier argRules v2) then .ok v2 else .error .assertionError
  match inner with
  | .ok v => .ok v
  | .error _ => .error .runtimeError

/-- The loop body of `load_arguments` over the declared arguments. -/
def loadArgumentsLoop (actual : List (String × Value)) :
    List (String × Value) → List (String × Value) →
    Except PyErr (List (String × Value))
  | [], res => .ok res
  | (argName, argRules) :: rest, res => do
    match dictLookup argName actual with
    | some v => do
      let mv ← (match argRules with
        | vDict rl => match_actual_argument rl v
        | _ => .error .runtimeError)
      loadArgumentsLoop actual rest (res ++ [(argName, mv)])
    | none =>
      match argRules with
      | vDict rl =>
        (match dictLookup "default" rl with
         | some d => loadArgumentsLoop actual rest (res ++ [(argName, d)])
         | none =>
           match dictLookup "required" rl with
           | some req =>
             if pyTruthy req then .error .valueError
             else loadArgumentsLoop actual rest res
           | none => loadArgumentsLoop actual rest res)
      | vList l =>
        if l.any (fun y => pyEq (vStr "default") y) then .error .typeError
        else .error .attributeError
      | _ => .error .typeError

/-- `Recipe.load_arguments(actual_arguments)`: `self.recipe[KW_RECIPE_ARGUMENTS]`
raises `KeyError` when the validated recipe carries no `arguments` key;
when present but falsy, the loop is skipped and the resolved map is empty;
otherwise each declared argument is matched, defaulted, required-checked
or dropped. -/
def load_arguments (recipeAttr actualArguments : List (String × Value)) :
    Except PyErr (List (String × Value)) :=
  match dictLookup "arguments" recipeAttr with
  | none => .error .keyError
  | some argsNode =>
    if pyTruthy argsNode then
      match argsNode with
      | vDict argEntries => loadArgumentsLoop actualArguments argEntries []
      | _ => .error .attributeError
    else .ok []

/-- The C2 stream rule `{codec: {whitelist: [h264, hevc]}}`. -/
def c2_codec_rule : Value := vDict [("whitelist", vList [vStr "h264", vStr "hevc"])]

/-- A validated recipe subtree (the value `__init__` stores into
`self.recipe`) whose input section holds the C2 stream rule. -/
def c2_recipe : List (String × Value) :=
  [("input", vDict [("streams", vDict [("video", vDict [("codec", c2_codec_rule)])])]),
   ("stream-processor", vDict [("video", vDict [("processor", vStr "x"),
     ("parameters", vDict []), ("case", vList [])])]),
   ("post-processing", vList []),
   ("output", vDict [("directory", vStr "."), ("suffix", vStr "out")])]

/-- A candidate whose only video stream is h264. -/
def c2_media_h264 : Media :=
  ⟨"mkv", 1000, 10, 800, false, [⟨"video", "h264", 1920, 1080⟩], []⟩

/-- A candidate whose video codecs include av1. -/
def c2_media_av1 : Media :=
  ⟨"mkv", 1000, 10, 800, false,
   [⟨"video", "h264", 1920, 1080⟩, ⟨"video", "av1", 1280, 720⟩], []⟩

/-- A validated recipe subtree without the optional `arguments` key. -/
def c10_recipe : List (String × Value) :=
  [("input", vDict []), ("stream-processor", vDict []),
   ("post-processing", vList []),
   ("output", vDict [("directory", vStr "."), ("suffix", vStr "o")])]

/-! ## The grammar primitives and the structure validator (`logic.py`) -/

/-- The Python types a terminal grammar rule can require. -/
inductive PyType where
  | tStr
  | tInt
  | tFloat
  | tBool
deriving DecidableEq, Repr

/-- `isinstance(v, ty)` (`bool` is a subclass of `int`). -/
def isInstTy (ty : PyType) : Value → Bool
  | vStr _ => ty = .tStr
  | vInt _ => ty = .tInt
  | vBool _ => ty = .tInt || ty = .tBool
  | vFloat _ => ty = .tFloat
  | _ => false

/-- A grammar rule, one constructor per `Grammar` factory of `logic.py`
(`all_of(S)` is `n_of(len(S), S)` and `at_least_1_of(S)` is
`at_least_n_of(1, S)`, so only the general forms appear). -/
inductive GRule where
  | anyR
  | anyOf (what : List String)
  | nOf (n : Nat) (what : List String)
  | atLeastNOf (n : Nat) (what : List String)
  | combineR (rules : List GRule)
  | terminalVariable (varType : Option PyType) (allowedValues : Option (List Value))
  | terminalCollection (varType : PyType) (allowedItems : Option (List Value))
      (requiredItems : Option (List Value))
  | nonterminalCollection (allowedItems : Option (List String))
      (requiredItems : Option (List String))

/-- Union of two key sets (Python `set.union` of string sets), keeping
first-occurrence order. -/
def sunion (a b : List String) : List String :=
  a ++ b.filter (fun k => ¬ a.contains k)

mutual
/-- A grammar rule applied to `set(data.keys())` — the only set inputs
the validator ever passes to a rule (the dict branch of `_validate`).
Python set intersection is modeled by filtering the input key set in
order; `terminal_variable` with no declared type either hashes the set
for the `values in allowed_values` test or builds `{values}`, both of
which raise `TypeError` on a set; the collection rules see that a set is
not a `Sequence` and return the empty set. -/
def applyRuleKeys : GRule → List String → Except PyErr (List String)
  | .anyR, keyset => .ok keyset
  | .anyOf what, keyset => .ok (keyset.filter (fun k => what.contains k))
  | .nOf n what, keyset =>
    let common := keyset.filter (fun k => what.contains k)
    .ok (if common.length = n then common else [])
  | .atLeastNOf n what, keyset =>
    let common := keyset.filter (fun k => what.contains k)
    .ok (if n ≤ common.length then common else [])
  | .combineR rules, keyset => combineKeys rules keyset []
  | .terminalVariable varType _, _ =>
    (match varType with
     | some _ => .ok []
     | none => .error .typeError)
  | .terminalCollection _ _ _, _ => .ok []
  | .nonterminalCollection _ _, _ => .ok []

/-- `Grammar.combine` on a key set: `res = res.union(rule(values))` over
the member rules, left to right. -/
def combineKeys : List GRule → List String → List String → Except PyErr (List String)
  | [], _, acc => .ok acc
  | r :: rest, keyset, acc => do
    let out ← applyRuleKeys r keyset
    combineKeys rest keyset (sunion acc out)
end

/-- `acc.union(out)` where `out` is an arbitrary Python value: sets and
lists contribute their elements, a string its characters, a dict its
keys; scalars and `None` are not iterable and raise `TypeError`;
unhashable elements raise `TypeError` inside the set insertion. -/
def pySetUnionVal (acc : List Value) : Value → Except PyErr (List Value)
  | vSet l => pySetOfAux acc l
  | vList l => pySetOfAux acc l
  | vStr s => pySetOfAux acc (s.toList.map (fun c => vStr (String.mk [c])))
  | vDict es => pySetOfAux acc (es.map (fun kv => vStr kv.1))
  | _ => .error .typeError

/-- `next(iter(v))`: the first element of an iterable (`StopIteration`
when empty, `TypeError` on a non-iterable; iterating a dict yields its
keys, iterating a string its one-character substrings). -/
def pyFirstElem : Value → Except PyErr Value
  | vDict [] => .error .stopIteration
  | vDict ((k, _) :: _) => .ok (vStr k)
  | vList [] => .error .stopIteration
  | vList (x :: _) => .ok x
  | vSet [] => .error .stopIteration
  | vSet (x :: _) => .ok x
  | vStr s =>
    (match s.toList with
     | [] => .error .stopIteration
     | c :: _ => .ok (vStr (String.mk [c])))
  | _ => .error .typeError

/-- `all_keys = {next(iter(v)) for v in values}` of
`nonterminal_collection`, evaluated element by element in order. -/
def ntcAllKeys (acc : List Value) : List Value → Except PyErr (List Value)
  | [] => .ok acc
  | x :: xs => do
    let f ← pyFirstElem x
    ntcAllKeys (← pySetInsert acc f) xs

/-- The accepted-keys comprehension of `nonterminal_collection`:
`{next(iter(v)) for v in values if len(v) == 1 and next(iter(v)) in
allowed_items}` (all elements are dicts when this runs; with
`allowed_items is None` the membership test would be `in None`, a
`TypeError`). -/
def ntcAccepted (allowedItems : Option (List String)) (acc : List Value) :
    List Value → Except PyErr Value
  | [] => .ok (vSet acc)
  | x :: xs =>
    match x with
    | vDict [(k, _)] =>
      (match allowedItems with
       | some ai =>
         if ai.contains k then do
           ntcAccepted allowedItems (← pySetInsert acc (vStr k)) xs
         else ntcAccepted allowedItems acc xs
       | none => .error .typeError)
    | _ => ntcAccepted allowedItems acc xs

mutual
/-- A grammar rule applied to a non-set value (the scalar and list
branches of `_validate` — and any other value kind, following the same
`isinstance` dispatch as the Python closures). -/
def applyRuleVal : GRule → Value → Except PyErr Value
  | .anyR, v => .ok v
  | .anyOf _, _ => .ok (vSet [])
  | .nOf _ _, _ => .ok (vSet [])
  | .atLeastNOf _ _, _ => .ok (vSet [])
  | .combineR rules, v => do .ok (vSet (← combineVals rules v []))
  | .terminalVariable varType allowedValues, v =>
    if is_a_collection v || isDictV v then .ok (vSet [])
    else
      (match varType with
       | some ty =>
         if isInstTy ty v then
           (match allowedValues with
            | some av =>
              if isHashable v then
                .ok (if av.any (fun y => pyEq v y) then vSet [v] else vSet [])
              else .error .typeError
            | none => if isHashable v then .ok (vSet [v]) else .error .typeError)
         else .ok (vSet [])
       | none =>
         (match allowedValues with
          | some av =>
            if isHashable v then
              .ok (if av.any (fun y => pyEq v y) then vSet [v] else vSet [])
            else .error .typeError
          | none => if isHashable v then .ok (vSet [v]) else .error .typeError))
  | .terminalCollection varType allowedItems requiredItems, v =>
    (match v with
     | vList l =>
       if l.all (fun x => isInstTy varType x) then
         if (match allowedItems with
             | some ai => l.all (fun x => ai.any (fun y => pyEq x y))
             | none => true) then
           if (match requiredItems with
               | some ri => ri.all (fun rq => l.any (fun x => pyEq rq x))
               | none => true) then do
             .ok (vSet (← pySetOf l))
           else .ok (vSet [])
         else .ok (vSet [])
       else .ok (vSet [])
     | _ => .ok (vSet []))
  | .nonterminalCollection allowedItems requiredItems, v =>
    (match v with
     | vList l => do
       let allKeys ← ntcAllKeys [] l
       if l.all (fun x => isDictV x) then
         if (match requiredItems with
             | some ri => ri.all (fun rq => allKeys.any (fun y => pyEq (vStr rq) y))
             | none => true) then
           ntcAccepted allowedItems [] l
         else .ok (vSet [])
       else .ok (vSet [])
     | _ => .ok (vSet []))

/-- `Grammar.combine` on a non-set value: `res = res.union(rule(values))`
over the member rules, left to right. -/
def combineVals : List GRule → Value → List Value → Except PyErr (List Value)
  | [], _, acc => .ok acc
  | r :: rest, v, acc => do
    let out ← applyRuleVal r v
    combineVals rest v (← pySetUnionVal acc out)
end

/-- Suffixes of a character list obtainable by deleting a (possibly
empty) run of non-dot characters: the candidate remainders after the
regex fragment `[^\.]*`. -/
def nonDotSuffixes : List Char → List (List Char)
  | [] => [[]]
  | c :: rest => (c :: rest) :: (if c = '.' then [] else nonDotSuffixes rest)

/-- Match the compiled form of a grammar key against a character list:
literal characters (the escaped `.` included) match themselves and `*`
matches `[^\.]*`. -/
def segMatch : List Char → List Char → Bool
  | [], s => s.isEmpty
  | '*' :: ks, s => (nonDotSuffixes s).any (fun rest => segMatch ks rest)
  | k :: ks, s =>
    (match s with
     | [] => false
     | c :: cs => k = c && segMatch ks cs)

/-- `make_grammar_key_pattern_map` compiles each grammar key to
`^.*\.?<key with . escaped and * as [^\.]*>$`; since the leading `.*`
absorbs arbitrary characters including the optional dot, the pattern
matches a path exactly when some suffix of the path matches the key. -/
def patMatch (key path : String) : Bool :=
  (listSuffixes path.toList).any (fun s => segMatch key.toList s)

/-- The match power of a grammar key, in half units so that the exact
binary floats of the source (`0.5` per `*` segment, `0` per empty
segment, `1.0` per literal segment) live in `Nat` — an exact,
order-preserving reparameterization: `1` per `*`, `0` per empty, `2` per
literal segment of the dot-split key. -/
def matchPower2 (k : String) : Nat :=
  ((pySplit '.' k).map (fun seg =>
    if seg = "*" then 1 else if seg = "" then 0 else 2)).sum

/-- `sorted(candidate_keys, key=len, reverse=True)[0]`: Python's sort is
stable, so the selected key is the first candidate of maximal length. -/
def selectLongest : List String → String
  | [] => ""
  | k :: ks => ks.foldl (fun best cand =>
      if best.length < cand.length then cand else best) k

/-- The candidate grammar keys whose pattern matches the path, in
grammar insertion order. -/
def compatKeys (gkeys : List String) (path : String) : List String :=
  gkeys.filter (fun k => patMatch k path)

/-- `max(candidate_key_with_match_power.values())` (the scores are
non-negative, so folding from `0` computes the maximum of the non-empty
candidate list). -/
def maxPowerOf (compat : List String) : Nat :=
  (compat.map matchPower2).foldl max 0

/-- The candidates attaining the maximal match power, in order. -/
def atMaxPower (compat : List String) : List String :=
  compat.filter (fun k => matchPower2 k = maxPowerOf compat)

/-- The several-candidates branch of `load_grammar_rule`: a unique
maximal-power candidate is selected; a shared maximum resolves to the
longest candidate only when the maximal power equals `1.0` (two half
units); otherwise an error is logged and no rule is selected. -/
def loadGrammarTie (compat : List String) : Option String :=
  match atMaxPower compat with
  | [k] => some k
  | _ =>
    if maxPowerOf compat = 2 then some (selectLongest (atMaxPower compat))
    else none

/-- The key-selection logic of `load_grammar_rule`: no candidate selects
nothing, a unique candidate is taken directly, several candidates go to
the match-power heuristics. -/
def loadGrammarKey (gkeys : List String) (path : String) : Option String :=
  match compatKeys gkeys path with
  | [] => none
  | [k] => some k
  | compat => loadGrammarTie compat

/-- Lookup of a grammar rule by its key. -/
def gLookup (k : String) : List (String × GRule) → Option GRule
  | [] => none
  | (k2, r) :: tl => if k2 = k then some r else gLookup k tl

/-- `load_grammar_rule(path)`: the rule registered under the selected
key, if any (`grammar_usage` bookkeeping only feeds a warning). -/
def loadGrammarRule (g : List (String × GRule)) (path : String) : Option GRule :=
  (loadGrammarKey (g.map Prod.fst) path).bind (fun k => gLookup k g)

/-- `set(data.keys())` in first-occurrence order. -/
def dedupKeysAux (seen : List String) : List String → List String
  | [] => []
  | k :: tl =>
    if seen.contains k then dedupKeysAux seen tl
    else k :: dedupKeysAux (seen ++ [k]) tl

/-- `set(data.keys())` in first-occurrence order. -/
def dedupKeys (l : List String) : List String := dedupKeysAux [] l

/-- The scalar branch of `_validate`: keep the scalar when the rule's
output is truthy, else return `None`. -/
def validateScalar (rule : GRule) (v : Value) : Except PyErr Value := do
  .ok (if pyTruthy (← applyRuleVal rule v) then v else vNull)

mutual
/-- `DataStructureValidator._validate(data, path)`.  With no matching
rule the subtree is discarded (`None`).  Scalars are kept iff the rule
output is truthy.  For dicts, the rule is applied to the key set and the
accepted keys are validated recursively at `path + "." + key`; the
Python dict comprehension iterates the accepted key set in unspecified
set order, which we realize in document insertion order — the same map.
For lists, the rule is applied to the list; single-key dict elements
whose key is accepted recurse, scalars are kept iff accepted, dict
elements with zero or several keys hit `assert len(item) == 1`, and
other element kinds are logged and dropped.  Any other data kind is an
error log returning `None`. -/
def validateAux (g : List (String × GRule)) : Value → String → Except PyErr Value
  | data, path =>
    match loadGrammarRule g path with
    | none => .ok vNull
    | some rule =>
      match data with
      | vBool b => validateScalar rule (vBool b)
      | vInt n => validateScalar rule (vInt n)
      | vFloat q => validateScalar rule (vFloat q)
      | vStr s => validateScalar rule (vStr s)
      | vDict entries => do
        let accepted ← applyRuleKeys rule (dedupKeys (entries.map Prod.fst))
        let res ← validateEntries g entries path accepted
        .ok (vDict res)
      | vList items => do
        let vi ← applyRuleVal rule (vList items)
        let res ← validateItems g items path vi
        .ok (vList res)
      | vNull => .ok vNull
      | vSet _ => .ok vNull

/-- The dict branch of `_validate`: each accepted key is validated
recursively (a key is consumed once, matching dict-key uniqueness). -/
def validateEntries (g : List (String × GRule)) :
    List (String × Value) → String → List String →
    Except PyErr (List (String × Value))
  | [], _, _ => .ok []
  | (k, v) :: tl, path, accepted =>
    if accepted.contains k then do
      let w ← validateAux g v (path ++ "." ++ k)
      let rest ← validateEntries g tl path (accepted.filter (fun a => a ≠ k))
      .ok ((k, w) :: rest)
    else validateEntries g tl path accepted

/-- The list branch of `_validate` over the items. -/
def validateItems (g : List (String × GRule)) :
    List Value → String → Value → Except PyErr (List Value)
  | [], _, _ => .ok []
  | item :: tl, path, vi =>
    match item with
    | vDict [(k, v)] =>
      if pyMem (vStr k) vi then do
        let w ← validateAux g v (path ++ "." ++ k)
        let rest ← validateItems g tl path vi
        .ok (vDict [(k, w)] :: rest)
      else validateItems g tl path vi
    | vDict _ => .error .assertionError
    | vNull => validateItems g tl path vi
    | vList _ => validateItems g tl path vi
    | vSet _ => validateItems g tl path vi
    | x =>
      if pyMem x vi then do
        let rest ← validateItems g tl path vi
        .ok (x :: rest)
      else validateItems g tl path vi
end

/-- `DataStructureValidator.validate(data)`: run `_validate` from the
root path `/` (the unused-grammar-keys warning has no semantic effect on
the returned value). -/
def pyValidate (g : List (String × GRule)) (data : Value) : Except PyErr Value :=
  validateAux g data "/"

/-! ## The recipe schema (`recipe.py`: `RECIPE_STRUCTURE`) -/

/-- `ALL_DPS`: the data-point specifiers. -/
def ALL_DPS : List String := ["max", "min", "blacklist", "whitelist"]

/-- `ALL_FILE_DP`: the file-level data points. -/
def ALL_FILE_DP : List String :=
  ["extension", "size", "duration", "nb-streams", "bitrate", "has-chapters"]

/-- `ALL_STREAMTYPE`. -/
def ALL_STREAMTYPE : List String := ["video", "audio", "subtitle", "attachment"]

/-- `ALL_GENERIC_STREAM_DP`. -/
def ALL_GENERIC_STREAM_DP : List String := ["nb-streams", "codec"]

/-- `ALL_AV_STREAM_DP`. -/
def ALL_AV_STREAM_DP : List String :=
  ALL_GENERIC_STREAM_DP ++ ["size", "duration", "bitrate"]

/-- `ALL_VIDEO_DP`. -/
def ALL_VIDEO_DP : List String :=
  ALL_AV_STREAM_DP ++ ["width", "height", "quality-index", "bit-depth"]

/-- `STREAM_PROCESSOR_GRAMMAR_DEFINITION`. -/
def STREAM_PROCESSOR_GRAMMAR_DEFINITION : List GRule :=
  [.nOf 1 ["processor"], .nOf 1 ["parameters"]]

/-- `RECIPE_CASE_STRUCTURE`. -/
def RECIPE_CASE_STRUCTURE : GRule :=
  .nonterminalCollection (some ["default", "if"]) none

/-- `ARGUMENT_TYPE_ALLOWED_VALUES`. -/
def ARGUMENT_TYPE_ALLOWED_VALUES : List Value :=
  [vStr "str", vStr "int", vStr "float", vStr "bool"]

/-- `RECIPE_STRUCTURE`, in the source's insertion order (the order shapes
the candidate list of `load_grammar_rule`); `all_of(S)` is transcribed as
`nOf |S| S` and `at_least_1_of(S)` as `atLeastNOf 1 S`. -/
def RECIPE_STRUCTURE : List (String × GRule) :=
  [("/", .nOf 2 ["recode-engine", "recipe"]),
   ("recode-engine", .terminalVariable none none),
   ("recipe", .combineR [.nOf 4 ["input", "stream-processor", "post-processing",
      "output"], .anyOf ["arguments"]]),
   ("input", .anyOf (ALL_FILE_DP ++ ["streams"])),
   ("streams", .atLeastNOf 1 ALL_STREAMTYPE),
   ("video", .atLeastNOf 1 ALL_VIDEO_DP),
   ("audio", .atLeastNOf 1 ALL_AV_STREAM_DP),
   ("subtitle", .atLeastNOf 1 ALL_GENERIC_STREAM_DP),
   ("attachment", .atLeastNOf 1 ALL_GENERIC_STREAM_DP),
   ("extension", .atLeastNOf 1 ALL_DPS),
   ("size", .atLeastNOf 1 ALL_DPS),
   ("duration", .atLeastNOf 1 ALL_DPS),
   ("nb-streams", .atLeastNOf 1 ALL_DPS),
   ("height", .atLeastNOf 1 ALL_DPS),
   ("width", .atLeastNOf 1 ALL_DPS),
   ("bitrate", .atLeastNOf 1 ALL_DPS),
   ("codec", .atLeastNOf 1 ALL_DPS),
   ("has-chapters", .terminalVariable (some .tBool) none),
   ("quality-index", .atLeastNOf 1 ALL_DPS),
   ("arguments", .anyR),
   ("arguments.*", .combineR [.nOf 3 ["type", "required", "default"],
      .anyOf ALL_DPS]),
   ("arguments.*.type", .terminalVariable (some .tStr)
      (some ARGUMENT_TYPE_ALLOWED_VALUES)),
   ("arguments.*.values", .terminalCollection .tStr none none),
   ("arguments.*.required", .terminalVariable (some .tBool) none),
   ("arguments.*.default", .terminalVariable none none),
   ("default", .combineR STREAM_PROCESSOR_GRAMMAR_DEFINITION),
   ("stream-processor", .atLeastNOf 1 ALL_STREAMTYPE),
   ("stream-processor.*", .combineR (STREAM_PROCESSOR_GRAMMAR_DEFINITION ++
      [.nOf 1 ["case"]])),
   ("case", RECIPE_CASE_STRUCTURE),
   ("if", .combineR [.nOf 1 ["then"], .anyR]),
   ("then", .combineR STREAM_PROCESSOR_GRAMMAR_DEFINITION),
   ("post-processing", .nonterminalCollection (some ["case"]) none),
   ("output", .nOf 2 ["directory", "suffix"]),
   ("directory", .terminalVariable (some .tStr) none),
   ("suffix", .terminalVariable (some .tStr) none),
   ("max", .terminalVariable none none),
   ("min", .terminalVariable none none),
   ("blacklist", .combineR [.terminalCollection .tStr none none,
      .terminalVariable (some .tStr) none]),
   ("whitelist", .combineR [.terminalCollection .tStr none none,
      .terminalVariable (some .tStr) none]),
   ("argument", .anyOf ["name", "value"]),
   ("name", .terminalVariable (some .tStr) none),
   ("value", .terminalVariable none none),
   ("processor", .terminalVariable (some .tStr) none),
   ("parameters", .anyR),
   ("parameters.*", .terminalVariable none none)]

/-- Validation of a document against the recipe schema
(`Recipe.VALIDATOR.validate`). -/
def recipeValidate (data : Value) : Except PyErr Value :=
  pyValidate RECIPE_STRUCTURE data

/-- `Recipe.__init__(recipe)`: validate the raw document, subscript the
result at `"recipe"` (a `TypeError` if validation returned `None`, a
`KeyError` if the key was dropped), `weak_leaf_parse` the subtree and
require it to be non-`None` (`assertTrue(self.recipe is not None)`).
The stored attribute is the subtree under `"recipe"`, not the whole
validated document. -/
def Recipe_init (raw : Value) : Except PyErr Value := do
  let validated ← recipeValidate raw
  match validated with
  | vDict es =>
    (match dictLookup "recipe" es with
     | some sub => do
       let parsed ← weak_leaf_parse sub
       (match parsed with
        | vNull => .error .assertionError
        | p => .ok p)
     | none => .error .keyError)
  | _ => .error .typeError

/-- The recipe subtree of the minimal valid recipe document. -/
def minimalRecipeSubtree : Value :=
  vDict [
    ("input", vDict [("size", vDict [("max", vInt 5)])]),
    ("stream-processor", vDict [("video", vDict [
      ("processor", vStr "x"),
      ("parameters", vDict [("a", vInt 1)]),
      ("case", vList [vDict [("default", vDict [
        ("processor", vStr "x"), ("parameters", vDict [])])]])])]),
    ("post-processing", vList []),
    ("output", vDict [("directory", vStr "d"), ("suffix", vStr "s")])]

/-- A minimal valid recipe document (spec scenario S2). -/
def minimalRecipe : Value :=
  vDict [("recode-engine", vInt 1), ("recipe", minimalRecipeSubtree)]

/-- The scalar elements of a list accepted by the rule output, in order
(what the list branch keeps when no dict elements are present). -/
def keptScalars (vi : Value) (items : List Value) : List Value :=
  items.filter (fun item => isTerminalV item && pyMem item vi)

/-- The C5 counterexample schema keys: two wildcard patterns of power
`1.5` both matching the path `/.a.b`. -/
def c5_grammar_keys : List String := ["/", "a.*", "*.b"]

/-! ## Idempotence of validation (spec law "grammar idempotence")

The development below proves that re-validating a validator output
reproduces it, rule by rule, and assembles the law
`validate(validate(D)) == validate(D)` for the recipe schema. -/

mutual
/-- Structural size of a value (for the strong induction). -/
def vsize : Value → Nat
  | vList l => 1 + vsizeL l
  | vDict es => 1 + vsizeD es
  | vSet l => 1 + vsizeL l
  | _ => 1
/-- Structural size of a value list. -/
def vsizeL : List Value → Nat
  | [] => 0
  | x :: xs => vsize x + vsizeL xs
/-- Structural size of a dict entry list. -/
def vsizeD : List (String × Value) → Nat
  | [] => 0
  | kv :: tl => vsize kv.2 + vsizeD tl
end

/-- The accept/drop skeleton of the list branch: how `_validate` turns
the items of a list into the retained elements, given the rule output
`vi` (dict values are replaced by the recursion's results, recorded here
as arbitrary). -/
inductive ItemsRel (vi : Value) : List Value → List Value → Prop where
  | nil : ItemsRel vi [] []
  | keepScalar {x tl res} : isTerminalV x = true → pyMem x vi = true →
      ItemsRel vi tl res → ItemsRel vi (x :: tl) (x :: res)
  | dropScalar {x tl res} : isTerminalV x = true → pyMem x vi = false →
      ItemsRel vi tl res → ItemsRel vi (x :: tl) res
  | keepDict {k v w tl res} : pyMem (vStr k) vi = true →
      ItemsRel vi tl res → ItemsRel vi (vDict [(k, v)] :: tl) (vDict [(k, w)] :: res)
  | dropDict {k v tl res} : pyMem (vStr k) vi = false →
      ItemsRel vi tl res → ItemsRel vi (vDict [(k, v)] :: tl) res
  | dropOther {x tl res} : isTerminalV x = false → isDictV x = false →
      ItemsRel vi tl res → ItemsRel vi (x :: tl) res

/-- Key-set stability of a rule: its accepted keys lie in the input key
set, and re-applying the rule to any duplicate-free enumeration of the
accepted set accepts every key of that enumeration.  This is what the
dict branch of `_validate` needs for idempotence. -/
def KeyStable (r : GRule) : Prop :=
  ∀ K A, K.Nodup → applyRuleKeys r K = .ok A →
    (∀ a ∈ A, a ∈ K) ∧
    ∀ K2, K2.Nodup → (∀ k, k ∈ K2 ↔ k ∈ A) →
      ∃ A2, applyRuleKeys r K2 = .ok A2 ∧ ∀ k ∈ K2, k ∈ A2

/-- Everything the first pass kept would be kept again by a second rule
output `vi2`: kept scalars are members and kept dict keys are accepted. -/
def KeepAll (vi2 : Value) (res : List Value) : Prop :=
  (∀ x ∈ res, isTerminalV x = true → pyMem x vi2 = true) ∧
  (∀ k w, vDict [(k, w)] ∈ res → pyMem (vStr k) vi2 = true)

/-- A rule is stable on lists: re-applying it to the retained elements
succeeds and accepts every one of them. -/
def ListStable (r : GRule) : Prop :=
  ∀ items vi res, applyRuleVal r (vList items) = .ok vi →
    ItemsRel vi items res →
    ∃ vi2, applyRuleVal r (vList res) = .ok vi2 ∧ KeepAll vi2 res

/-! ## Theorems -/

-- Basic sanity checks of the Python semantics helpers.
example : pyEq (vBool true) (vInt 1) = true := by decide
example : pyEq (vInt 1) (vFloat 1) = true := by decide
example : pyEq (vStr "a") (vInt 1) = false := by decide
example : pyEq (vSet [vInt 1, vInt 2]) (vSet [vInt 2, vInt 1]) = true := by decide
example : pyEq (vDict [("a", vInt 1)]) (vDict [("a", vInt 1)]) = true := by decide
example : pySetOf [vInt 1, vInt 1, vInt 2] = .ok [vInt 1, vInt 2] := rfl
example : pySetOf [vList []] = .error .typeError := rfl

-- The docstring examples of `duration_MI_to_s` and `weak_parse`.
example : weak_parse (vStr "2 min 12 s") = .ok (vInt 132) := rfl
example : weak_parse (vStr "1 h 10 min") = .ok (vInt 4200) := rfl
example : weak_parse (vStr "4 s") = .ok (vInt 4) := rfl
example : weak_parse (vStr "217M") = .ok (vInt 217000000) := rfl
example : weak_parse (vStr "2000k") = .ok (vInt 2000000) := rfl
example : weak_parse (vStr "h264") = .ok (vStr "h264") := rfl
-- Inputs on which `weak_parse` raises.
example : weak_parse (vStr "") = .error .indexError := rfl
example : weak_parse (vStr "4 x") = .error .keyError := rfl
example : weak_parse (vStr "K") = .error .valueError := rfl

/-- On a string input, a successful `weak_parse` yields an int, a float, or
the input string itself. -/
theorem weak_parse_str_shape (s : String) (w : Value)
    (h : weak_parse_str s = .ok w) :
    (∃ n, w = vInt n) ∨ (∃ q, w = vFloat q) ∨ w = vStr s := by
  unfold weak_parse_str at h
  split at h
  · exact Or.inl ⟨_, by injection h with h1; exact h1.symm⟩
  · split at h
    · split at h
      · exact absurd h (by simp)
      · split at h
        · split at h
          · exact Or.inl ⟨_, by injection h with h1; exact h1.symm⟩
          · split at h
            · exact Or.inr (Or.inl ⟨_, by injection h with h1; exact h1.symm⟩)
            · exact absurd h (by simp)
        · exact Or.inr (Or.inr (by injection h with h1; exact h1.symm))
    · exact absurd h (by simp)

/-- C8 (amended): `weak_parse` is stable under repetition wherever it
succeeds — if `weak_parse x` returns a value `w` (rather than raising),
then `weak_parse w` returns `w` itself.  The totality half of the original
claim is refuted by `C8_counterexample_empty_string`. -/
theorem C8_weak_parse_stable_on_success (x w : Value)
    (h : weak_parse x = .ok w) : weak_parse w = .ok w := by
  cases x with
  | vStr s =>
    rcases weak_parse_str_shape s w h with ⟨n, rfl⟩ | ⟨q, rfl⟩ | rfl
    · rfl
    · rfl
    · exact h
  | vNull => injection h with h1; subst h1; rfl
  | vBool b => injection h with h1; subst h1; rfl
  | vInt n => injection h with h1; subst h1; rfl
  | vFloat q => injection h with h1; subst h1; rfl
  | vList l => injection h with h1; subst h1; rfl
  | vDict es => injection h with h1; subst h1; rfl
  | vSet l => injection h with h1; subst h1; rfl

/-- C8 counterexample: `weak_parse` is not defined on every scalar — on the
empty string the failed duration parse is followed by `s[-1]`, which
raises `IndexError`, so `weak_parse(weak_parse(""))` is not even
well-posed. -/
theorem C8_counterexample_empty_string :
    weak_parse (vStr "") = .error .indexError := rfl

/-- C8 witness: the stability theorem applied to the concrete input
`"2 min 12 s"`, whose parse succeeds with the integer `132`. -/
theorem C8_witness :
    weak_parse (vStr "2 min 12 s") = .ok (vInt 132) ∧
    weak_parse (vInt 132) = .ok (vInt 132) :=
  ⟨rfl, C8_weak_parse_stable_on_success (vStr "2 min 12 s") (vInt 132) rfl⟩

/-- C6: refuted — with `stream0_passlog_0-0.log` and
`stream0_passlog_1-0.log` both present, the allocator returns the name
`stream0_passlog_1`, whose `-0.log` stats file already exists: the
returned name is not collision-free, contradicting the function's own
docstring ("Returns name for ffmpeg2pass that doesn't already exist"). -/
theorem C6_collision_at_allocation :
    get_valid_ffmpeg2pass_name c6_fs "stream0_passlog" = "stream0_passlog_1" ∧
    c6_fs.contains (ffmpeg2pass_file_names "stream0_passlog_1").1 = true :=
  ⟨rfl, rfl⟩

/-- C9: refuted — constructing a processing step with the
working-directory argument left at its default (`None`) raises
`AttributeError` at the `self.wd._cwd` dereference, for every parameter
map and every subclass `verify`; construction never reaches parameter
verification.  (The annotation `wd: WorkingDirectory | None = None` and
the `wd`-less construction in `test02` show the optional intent.) -/
theorem C9_wd_none_raises_before_verify
    (verify : List (String × Value) → Except PyErr Unit)
    (parameters : List (String × Value)) (currentCwd : Int) :
    ProcessingStep_init verify parameters none currentCwd =
      .error .attributeError := rfl

theorem psizeL_append (a b : List PStep) :
    psizeL (a ++ b) = psizeL a + psizeL b := by
  induction a with
  | nil => simp [psizeL]
  | cons s rest ih => simp [psizeL, ih]; ring

theorem psizeL_sprintNext (cur : List PStep) :
    psizeL (sprintNext cur) + cur.length = psizeL cur := by
  induction cur with
  | nil => simp [sprintNext, psizeL]
  | cons s rest ih =>
    cases s with
    | mk o n =>
      simp only [sprintNext, psizeL, psize, psizeL_append, List.length_cons,
        PStep.next]
      omega

theorem psizeL_sprintNext_lt (cur : List PStep) (h : ¬ cur.isEmpty) :
    psizeL (sprintNext cur) < psizeL cur := by
  have hlen : 0 < cur.length := by
    cases cur with
    | nil => simp at h
    | cons a b => simp
  have := psizeL_sprintNext cur
  omega

theorem sprintLoopFuel_adequate (f : ℕ) :
    ∀ g cur outs, psizeL cur < f → psizeL cur < g →
      sprintLoopFuel f cur outs = sprintLoopFuel g cur outs := by
  induction f with
  | zero => intro g cur outs hf; omega
  | succ f ih =>
    intro g cur outs hf hg
    cases g with
    | zero => omega
    | succ g =>
      simp only [sprintLoopFuel]
      by_cases hc : cur.isEmpty
      · simp [hc]
      · simp only [hc, if_false]
        have hlt := psizeL_sprintNext_lt cur hc
        exact ih g (sprintNext cur) (sprintOutputs cur) (by omega) (by omega)

/-- The fuel-free recurrence of the scheduler loop. -/
theorem sprintLoop_eq (cur : List PStep) (outs : Finset ℕ) :
    sprintLoop cur outs =
      if cur.isEmpty then outs
      else sprintLoop (sprintNext cur) (sprintOutputs cur) := by
  by_cases hc : cur.isEmpty
  · unfold sprintLoop; simp [sprintLoopFuel, hc]
  · rw [if_neg hc]
    have h1 : sprintLoop cur outs =
        sprintLoopFuel (psizeL cur) (sprintNext cur) (sprintOutputs cur) := by
      unfold sprintLoop; simp [sprintLoopFuel, hc]
    rw [h1]
    exact sprintLoopFuel_adequate (psizeL cur) (psizeL (sprintNext cur) + 1)
      (sprintNext cur) (sprintOutputs cur) (psizeL_sprintNext_lt cur hc)
      (by omega)

theorem sprintGensFuel_adequate (f : ℕ) :
    ∀ g cur, psizeL cur < f → psizeL cur < g →
      sprintGensFuel f cur = sprintGensFuel g cur := by
  induction f with
  | zero => intro g cur hf; omega
  | succ f ih =>
    intro g cur hf hg
    cases g with
    | zero => omega
    | succ g =>
      simp only [sprintGensFuel]
      by_cases hc : cur.isEmpty
      · simp [hc]
      · simp only [hc, if_false]
        have hlt := psizeL_sprintNext_lt cur hc
        rw [ih g (sprintNext cur) (by omega) (by omega)]

/-- The recurrence of the sprint-generation sequence. -/
theorem sprintGens_eq (cur : List PStep) :
    sprintGens cur =
      if cur.isEmpty then [] else cur :: sprintGens (sprintNext cur) := by
  by_cases hc : cur.isEmpty
  · unfold sprintGens; simp [sprintGensFuel, hc]
  · rw [if_neg hc]
    have h1 : sprintGens cur =
        cur :: sprintGensFuel (psizeL cur) (sprintNext cur) := by
      unfold sprintGens; simp [sprintGensFuel, hc]
    rw [h1]
    congr 1
    exact sprintGensFuel_adequate (psizeL cur) (psizeL (sprintNext cur) + 1)
      (sprintNext cur) (psizeL_sprintNext_lt cur hc) (by omega)

/-- The accumulator discipline of the loop: starting from a non-empty
sprint, the final accumulator holds exactly the outputs of the last
non-empty sprint, independently of the incoming accumulator. -/
theorem sprintLoop_last_outputs :
    ∀ cur outs, ¬ cur.isEmpty →
      sprintLoop cur outs = sprintOutputs (lastSprint cur) := by
  have main : ∀ n cur outs, psizeL cur ≤ n → ¬ cur.isEmpty →
      sprintLoop cur outs = sprintOutputs (lastSprint cur) := by
    intro n
    induction n with
    | zero =>
      intro cur outs hn hc
      cases cur with
      | nil => simp at hc
      | cons s rest => cases s with | mk o nx => simp [psizeL, psize] at hn
    | succ n ih =>
      intro cur outs hn hc
      by_cases hnext : (sprintNext cur).isEmpty
      · have hnil : sprintNext cur = [] := by
          cases h2 : sprintNext cur with
          | nil => rfl
          | cons a b => rw [h2] at hnext; simp at hnext
        have hLHS : sprintLoop (sprintNext cur) (sprintOutputs cur) =
            sprintOutputs cur := by
          rw [hnil, sprintLoop_eq]; simp
        have hgens : sprintGens cur = [cur] := by
          rw [sprintGens_eq, if_neg hc, hnil, sprintGens_eq]; simp
        rw [sprintLoop_eq, if_neg hc, hLHS]
        unfold lastSprint
        rw [hgens]
        simp
      · have hlt := psizeL_sprintNext_lt cur hc
        rw [sprintLoop_eq, if_neg hc,
          ih (sprintNext cur) (sprintOutputs cur) (by omega) hnext]
        have hgnil : sprintGens (sprintNext cur) ≠ [] := by
          rw [sprintGens_eq, if_neg hnext]
          simp
        unfold lastSprint
        rw [sprintGens_eq cur, if_neg hc]
        obtain ⟨x, xs, hxx⟩ : ∃ x xs, sprintGens (sprintNext cur) = x :: xs := by
          cases hg : sprintGens (sprintNext cur) with
          | nil => exact absurd hg hgnil
          | cons a b => exact ⟨a, b, rfl⟩
        rw [hxx, List.getLast?_cons_cons]
  intro cur outs hc
  exact main (psizeL cur) cur outs (le_refl _) hc

/-- C1 (amended): for every base step (whose step graph, being a finite
value, terminates), `ProcessingStep_execute` drives the sprint loop so
that its final `output_files` accumulator is exactly the set of outputs
of the last non-empty sprint — outputs of earlier sprints are discarded —
but the function body ends without a `return` statement, so the call
itself returns `None` rather than that set. -/
theorem C1_execute_last_sprint_outputs (base_step : PStep) :
    ProcessingStep_execute base_step = none ∧
    sprintLoop [base_step] ∅ = sprintOutputs (lastSprint [base_step]) :=
  ⟨rfl, sprintLoop_last_outputs [base_step] ∅ (by simp)⟩

/-- C1 counterexample: at `c1_base` the last non-empty sprint produces
exactly `{2}` and the loop accumulator ends as `{2}` (artifact `1` of the
first sprint is discarded), but `ProcessingStep_execute` returns `None`,
not that set — the claim that `execute` returns the last sprint's output
set is false. -/
theorem C1_counterexample_execute_returns_none :
    ProcessingStep_execute c1_base = none ∧
    (none : Option (Finset ℕ)) ≠ some (sprintOutputs (lastSprint [c1_base])) ∧
    sprintLoop [c1_base] ∅ = {2} ∧ (1 : ℕ) ∉ sprintLoop [c1_base] ∅ := by
  refine ⟨rfl, by simp, by decide, by decide⟩

/-- C3 (amended): for every single-entry rule map and every info map not
containing the rule's datapoint, `verify_rule` logs "Skipped because
missing info" but returns `False` — and every call site in
`validate_input` treats a `False` verdict as invalidating the candidate,
so the missing datapoint rejects the file rather than being skipped. -/
theorem C3_missing_datapoint_returns_false (datapoint : String) (spec : Value)
    (stream_info : List (String × Value))
    (h : dictLookup datapoint stream_info = none) :
    verify_rule [(datapoint, spec)] stream_info = .ok false := by
  unfold verify_rule
  simp [h]

/-- C3 counterexample: a `min`-rule on `width` evaluated against info that
lacks `width` returns `False` (the candidate is invalidated), not the
passing verdict the claim asserts. -/
theorem C3_counterexample_missing_datapoint_rejects :
    verify_rule [("width", vDict [("min", vInt 100)])]
        [("codec", vSet [vStr "h264"])] = .ok false ∧
    verify_rule [("width", vDict [("min", vInt 100)])]
        [("codec", vSet [vStr "h264"])] ≠ .ok true := by
  have h1 : verify_rule [("width", vDict [("min", vInt 100)])]
      [("codec", vSet [vStr "h264"])] = .ok false := rfl
  exact ⟨h1, by rw [h1]; simp⟩

/-- C3 witness: the amended theorem applied to a concrete rule on the
`duration` datapoint and an info map without it. -/
theorem C3_witness :
    dictLookup "duration" [("nb-streams", vInt 2)] = none ∧
    verify_rule [("duration", vDict [("max", vInt 3600)])]
      [("nb-streams", vInt 2)] = .ok false :=
  ⟨rfl, C3_missing_datapoint_returns_false "duration" (vDict [("max", vInt 3600)])
    [("nb-streams", vInt 2)] rfl⟩

/-- C2: refuted as stated — for every recipe attribute produced by
`Recipe.__init__` (which stores the subtree under the top-level
`"recipe"` key, so the attribute itself has no `"recipe"` key),
`validate_input` raises `KeyError` at its
`self.recipe[KW_RECIPE_ROOT][KW_RECIPE_INPUT]` subscript before
evaluating any rule, for every candidate media file. -/
theorem C2_validate_input_raises_keyerror
    (recipeAttr : List (String × Value)) (m : Media)
    (h : dictLookup "recipe" recipeAttr = none) :
    validate_input recipeAttr m = .error .keyError := by
  unfold validate_input
  rw [h]

/-- C2 witness: at the concrete validated recipe with the whitelist rule,
`validate_input` raises `KeyError` for both candidates; the whitelist
rule check that the loop would have issued (`verify_rule` against the
video stream info) does admit the h264 candidate and reject the av1
candidate, confirming the intent the bug defeats. -/
theorem C2_witness :
    dictLookup "recipe" c2_recipe = none ∧
    validate_input c2_recipe c2_media_h264 = .error .keyError ∧
    validate_input c2_recipe c2_media_av1 = .error .keyError ∧
    streamRuleCheck c2_media_h264 "video" ("codec", c2_codec_rule) = .ok true ∧
    streamRuleCheck c2_media_av1 "video" ("codec", c2_codec_rule) = .ok false :=
  ⟨rfl, C2_validate_input_raises_keyerror c2_recipe c2_media_h264 rfl,
   C2_validate_input_raises_keyerror c2_recipe c2_media_av1 rfl, rfl, rfl⟩

/-- C10: confirmed — when the validated recipe has no `arguments` key,
`load_arguments` raises `KeyError` at `self.recipe[KW_RECIPE_ARGUMENTS]`
for every dictionary of user-supplied arguments, instead of resolving to
an empty argument map. -/
theorem C10_load_arguments_raises_keyerror
    (recipeAttr actual : List (String × Value))
    (h : dictLookup "arguments" recipeAttr = none) :
    load_arguments recipeAttr actual = .error .keyError := by
  unfold load_arguments
  rw [h]

/-- C10 witness: the theorem applied to a concrete validated recipe
without `arguments` and a non-empty user argument map. -/
theorem C10_witness :
    dictLookup "arguments" c10_recipe = none ∧
    load_arguments c10_recipe [("x", vInt 1)] = .error .keyError :=
  ⟨rfl, C10_load_arguments_raises_keyerror c10_recipe [("x", vInt 1)] rfl⟩

-- S2-style sanity check: the minimal valid recipe validates to itself.
example : recipeValidate minimalRecipe = .ok minimalRecipe := rfl

/-- `Recipe.__init__` stores the subtree under `"recipe"`, which itself
has no `"recipe"` key — the state on which `validate_input`'s
`self.recipe["recipe"]` subscript then fails. -/
theorem Recipe_init_stores_subtree :
    Recipe_init minimalRecipe = .ok minimalRecipeSubtree ∧
    (match minimalRecipeSubtree with
     | vDict es => dictLookup "recipe" es
     | _ => none) = none :=
  ⟨rfl, rfl⟩

/-- C7 (amended): on a list whose elements are not dicts, the validator
drops every element that is not an accepted scalar — non-accepted
scalars and elements of unexpected kinds (`None`, nested lists, sets)
are logged and dropped — and never aborts, returning exactly the
accepted scalars in order.  (A dict element with zero or several keys
instead aborts validation on `assert len(item) == 1`; see the
counterexample.) -/
theorem C7_nondict_elements_drop_and_continue (g : List (String × GRule))
    (items : List Value) (path : String) (vi : Value)
    (h : ∀ item ∈ items, isDictV item = false) :
    validateItems g items path vi = .ok (keptScalars vi items) := by
  induction items with
  | nil => rfl
  | cons item tl ih =>
    have hitem := h item (List.mem_cons_self item tl)
    have htl : ∀ x ∈ tl, isDictV x = false :=
      fun x hx => h x (List.mem_cons_of_mem item hx)
    cases item with
    | vDict es => simp [isDictV] at hitem
    | vNull =>
      simp only [validateItems, keptScalars, List.filter_cons]
      simp [isTerminalV, keptScalars] at ih ⊢
      exact ih htl
    | vList l =>
      simp only [validateItems]
      simp [isTerminalV, keptScalars, List.filter_cons] at ih ⊢
      exact ih htl
    | vSet l =>
      simp only [validateItems]
      simp [isTerminalV, keptScalars, List.filter_cons] at ih ⊢
      exact ih htl
    | vBool b =>
      simp only [validateItems]
      by_cases hm : pyMem (vBool b) vi
      · simp [hm, keptScalars, List.filter_cons, isTerminalV, ih htl,
          Except.bind, bind]
      · simp [hm, keptScalars, List.filter_cons, isTerminalV, ih htl]
    | vInt n =>
      simp only [validateItems]
      by_cases hm : pyMem (vInt n) vi
      · simp [hm, keptScalars, List.filter_cons, isTerminalV, ih htl,
          Except.bind, bind]
      · simp [hm, keptScalars, List.filter_cons, isTerminalV, ih htl]
    | vFloat q =>
      simp only [validateItems]
      by_cases hm : pyMem (vFloat q) vi
      · simp [hm, keptScalars, List.filter_cons, isTerminalV, ih htl,
          Except.bind, bind]
      · simp [hm, keptScalars, List.filter_cons, isTerminalV, ih htl]
    | vStr str =>
      simp only [validateItems]
      by_cases hm : pyMem (vStr str) vi
      · simp [hm, keptScalars, List.filter_cons, isTerminalV, ih htl,
          Except.bind, bind]
      · simp [hm, keptScalars, List.filter_cons, isTerminalV, ih htl]

/-- C7 counterexample: a list containing a two-key map does not have that
element dropped — validation aborts with `AssertionError` on
`assert len(item) == 1` (here at the top of `validate`, where the root
rule has returned an empty accepted set for the list). -/
theorem C7_counterexample_multikey_map_aborts :
    recipeValidate (vList [vDict [("a", vInt 1), ("b", vInt 2)]]) =
      .error .assertionError := rfl

/-- C7 witness: the amended theorem at a concrete mixed list — the
accepted scalar is kept, the non-accepted scalar, nested list and `None`
are dropped, and validation continues. -/
theorem C7_witness :
    (∀ item ∈ [vStr "max", vStr "nope", vList [], vNull], isDictV item = false) ∧
    validateItems RECIPE_STRUCTURE [vStr "max", vStr "nope", vList [], vNull]
      "/.recipe.input.size" (vSet [vStr "max", vStr "min"]) =
      .ok [vStr "max"] :=
  ⟨by decide,
   (C7_nondict_elements_drop_and_continue RECIPE_STRUCTURE
     [vStr "max", vStr "nope", vList [], vNull] "/.recipe.input.size"
     (vSet [vStr "max", vStr "min"]) (by decide)).trans rfl⟩

/-- C5 (amended): with several candidate patterns tied at the maximal
match power, the validator resolves the tie to the longest pattern
string only when that maximal power equals `1.0` (two half units, i.e.
single-segment patterns); the selected pattern is the first candidate of
maximal length.  (At any other tied power no rule is selected; see the
counterexample.) -/
theorem C5_tie_at_power_one_selects_longest (gkeys : List String) (path : String)
    (h2 : 2 ≤ (compatKeys gkeys path).length)
    (hm : 2 ≤ (atMaxPower (compatKeys gkeys path)).length)
    (hp : maxPowerOf (compatKeys gkeys path) = 2) :
    loadGrammarKey gkeys path =
      some (selectLongest (atMaxPower (compatKeys gkeys path))) := by
  unfold loadGrammarKey
  cases hc : compatKeys gkeys path with
  | nil => rw [hc] at h2; simp at h2
  | cons a tl =>
    cases tl with
    | nil => rw [hc] at h2; simp at h2
    | cons b tl2 =>
      rw [hc] at hm hp
      show loadGrammarTie (a :: b :: tl2) =
        some (selectLongest (atMaxPower (a :: b :: tl2)))
      unfold loadGrammarTie
      cases ham : atMaxPower (a :: b :: tl2) with
      | nil => rw [ham] at hm; simp at hm
      | cons k tlm =>
        cases tlm with
        | nil => rw [ham] at hm; simp at hm
        | cons k2 tlm2 => simp [hp]

/-- C5 counterexample: at path `/.a.b` the patterns `a.*` and `*.b` tie
at the maximal match power `1.5`; the claim says the tie resolves to the
longest pattern, but `load_grammar_rule` selects no rule at all (the
longest-pattern tie-break is only taken when the power equals `1.0`). -/
theorem C5_counterexample_tie_above_one_fails :
    compatKeys c5_grammar_keys "/.a.b" = ["a.*", "*.b"] ∧
    matchPower2 "a.*" = 3 ∧ matchPower2 "*.b" = 3 ∧
    loadGrammarKey c5_grammar_keys "/.a.b" = none :=
  ⟨rfl, rfl, rfl, rfl⟩

/-- C5 witness: the tie-break the recipe schema itself exercises — at
path `/.recipe.stream-processor` the keys `stream-processor` and
`processor` both match with power `1.0`, and the longest,
`stream-processor`, is selected. -/
theorem C5_witness :
    2 ≤ (compatKeys (RECIPE_STRUCTURE.map Prod.fst) "/.recipe.stream-processor").length ∧
    2 ≤ (atMaxPower (compatKeys (RECIPE_STRUCTURE.map Prod.fst)
        "/.recipe.stream-processor")).length ∧
    maxPowerOf (compatKeys (RECIPE_STRUCTURE.map Prod.fst)
        "/.recipe.stream-processor") = 2 ∧
    loadGrammarKey (RECIPE_STRUCTURE.map Prod.fst) "/.recipe.stream-processor" =
      some "stream-processor" :=
  ⟨by decide, by decide, by decide,
   (C5_tie_at_power_one_selects_longest (RECIPE_STRUCTURE.map Prod.fst)
     "/.recipe.stream-processor" (by decide) (by decide) (by decide)).trans rfl⟩

theorem vsize_pos (v : Value) : 1 ≤ vsize v := by
  cases v <;> simp [vsize]

theorem vsizeL_of_mem {x : Value} {l : List Value} (h : x ∈ l) :
    vsize x ≤ vsizeL l := by
  induction l with
  | nil => cases h
  | cons y ys ih =>
    rcases List.mem_cons.mp h with rfl | hx
    · simp [vsizeL]
    · have := ih hx
      simp [vsizeL]; omega

theorem vsizeD_of_mem {k : String} {v : Value} {es : List (String × Value)}
    (h : (k, v) ∈ es) : vsize v ≤ vsizeD es := by
  induction es with
  | nil => cases h
  | cons kv tl ih =>
    rcases List.mem_cons.mp h with rfl | hx
    · simp [vsizeD]
    · have := ih hx
      simp [vsizeD]; omega

theorem vsize_dict_value {k : String} {v : Value} {es : List (String × Value)}
    (h : (k, v) ∈ es) : vsize v < vsize (vDict es) := by
  have := vsizeD_of_mem h
  simp [vsize]; omega

theorem vsize_list_dict_value {k : String} {v : Value} {items : List Value}
    (h : vDict [(k, v)] ∈ items) : vsize v < vsize (vList items) := by
  have h1 := vsizeL_of_mem h
  have h2 : vsize v ≤ vsizeD [(k, v)] :=
    vsizeD_of_mem (List.mem_singleton.mpr rfl)
  simp [vsize, vsizeD] at h1 h2 ⊢
  omega

/-- Bridge between boolean `List.contains` and membership for `String`. -/
theorem scont_iff (l : List String) (k : String) :
    l.contains k = true ↔ k ∈ l :=
  List.elem_iff

theorem scalarEq_refl (x : Value) (h : isTerminalV x = true) :
    scalarEq x x = true := by
  cases x <;> simp_all [isTerminalV, scalarEq, toRat]

theorem pyEq_of_terminal (x y : Value) (h : isTerminalV x = true) :
    pyEq x y = scalarEq x y := by
  cases x <;> simp_all [isTerminalV, pyEq]

theorem pyEq_refl_of_terminal (x : Value) (h : isTerminalV x = true) :
    pyEq x x = true := by
  rw [pyEq_of_terminal x x h]
  exact scalarEq_refl x h

theorem scalarEq_vStr {s : String} {y : Value}
    (h : scalarEq (vStr s) y = true) : y = vStr s := by
  cases y <;> simp_all [scalarEq, toRat]

theorem pyEq_vStr {s : String} {y : Value}
    (h : pyEq (vStr s) y = true) : y = vStr s :=
  scalarEq_vStr (by rw [pyEq_of_terminal (vStr s) y rfl] at h; exact h)

theorem itemsRel_res_shape {vi : Value} {items res : List Value}
    (h : ItemsRel vi items res) :
    ∀ x ∈ res, isTerminalV x = true ∨ ∃ k w, x = vDict [(k, w)] := by
  induction h with
  | nil => intro x hx; cases hx
  | keepScalar ht hm hrel ih =>
    intro x hx
    rcases List.mem_cons.mp hx with rfl | hx2
    · exact Or.inl ht
    · exact ih x hx2
  | dropScalar ht hm hrel ih => exact ih
  | keepDict hm hrel ih =>
    intro x hx
    rcases List.mem_cons.mp hx with rfl | hx2
    · exact Or.inr ⟨_, _, rfl⟩
    · exact ih x hx2
  | dropDict hm hrel ih => exact ih
  | dropOther ht hd hrel ih => exact ih

theorem itemsRel_kept_scalar {vi : Value} {items res : List Value}
    (h : ItemsRel vi items res) :
    ∀ x ∈ items, isTerminalV x = true → pyMem x vi = true → x ∈ res := by
  induction h with
  | nil => intro x hx; cases hx
  | keepScalar ht hm hrel ih =>
    intro x hx hxt hxm
    rcases List.mem_cons.mp hx with rfl | hx2
    · exact List.mem_cons_self _ _
    · exact List.mem_cons_of_mem _ (ih x hx2 hxt hxm)
  | dropScalar ht hm hrel ih =>
    intro x hx hxt hxm
    rcases List.mem_cons.mp hx with rfl | hx2
    · rw [hxm] at hm; cases hm
    · exact ih x hx2 hxt hxm
  | keepDict hm hrel ih =>
    intro x hx hxt hxm
    rcases List.mem_cons.mp hx with rfl | hx2
    · cases hxt
    · exact List.mem_cons_of_mem _ (ih x hx2 hxt hxm)
  | dropDict hm hrel ih =>
    intro x hx hxt hxm
    rcases List.mem_cons.mp hx with rfl | hx2
    · cases hxt
    · exact ih x hx2 hxt hxm
  | dropOther ht hd hrel ih =>
    intro x hx hxt hxm
    rcases List.mem_cons.mp hx with rfl | hx2
    · rw [hxt] at ht; cases ht
    · exact ih x hx2 hxt hxm

theorem itemsRel_empty_vi {items res : List Value}
    (h : ItemsRel (vSet []) items res) : res = [] := by
  induction h with
  | nil => rfl
  | keepScalar ht hm hrel ih => simp [pyMem] at hm
  | dropScalar ht hm hrel ih => exact ih
  | keepDict hm hrel ih => simp [pyMem] at hm
  | dropDict hm hrel ih => exact ih
  | dropOther ht hd hrel ih => exact ih

theorem itemsRel_all_scalars_kept {vi : Value} {items res : List Value}
    (h : ItemsRel vi items res)
    (hall : ∀ x ∈ items, isTerminalV x = true)
    (hkeep : ∀ x ∈ items, pyMem x vi = true) : res = items := by
  induction h with
  | nil => rfl
  | keepScalar ht hm hrel ih =>
    rw [ih (fun x hx => hall x (List.mem_cons_of_mem _ hx))
      (fun x hx => hkeep x (List.mem_cons_of_mem _ hx))]
  | dropScalar ht hm hrel ih =>
    have := hkeep _ (List.mem_cons_self _ _)
    rw [this] at hm; cases hm
  | keepDict hm hrel ih =>
    have := hall _ (List.mem_cons_self _ _)
    cases this
  | dropDict hm hrel ih =>
    have := hall _ (List.mem_cons_self _ _)
    cases this
  | dropOther ht hd hrel ih =>
    have := hall _ (List.mem_cons_self _ _)
    rw [this] at ht; cases ht

theorem sunion_nil_left (b : List String) : sunion [] b = b := by
  simp [sunion]

theorem mem_sunion {k : String} {a b : List String} :
    k ∈ sunion a b ↔ k ∈ a ∨ k ∈ b := by
  simp only [sunion, List.mem_append, List.mem_filter]
  constructor
  · rintro (h | ⟨h, _⟩)
    · exact Or.inl h
    · exact Or.inr h
  · rintro (h | h)
    · exact Or.inl h
    · by_cases ha : k ∈ a
      · exact Or.inl ha
      · exact Or.inr ⟨h, by simp [scont_iff, ha]⟩

theorem ks_const_empty (r : GRule)
    (h : ∀ K, applyRuleKeys r K = .ok []) : KeyStable r := by
  intro K A hn hok
  rw [h K] at hok
  injection hok with h1
  subst h1
  refine ⟨fun a ha => absurd ha (List.not_mem_nil a), ?_⟩
  intro K2 hn2 hmem
  exact ⟨[], h K2, fun k hk => (hmem k).mp hk⟩

theorem ks_anyR : KeyStable .anyR := by
  intro K A hn hok
  injection hok with h1
  subst h1
  exact ⟨fun a ha => ha, fun K2 hn2 hmem => ⟨K2, rfl, fun k hk => hk⟩⟩

theorem ks_anyOf (w : List String) : KeyStable (.anyOf w) := by
  intro K A hn hok
  injection hok with h1
  subst h1
  refine ⟨fun a ha => (List.mem_filter.mp ha).1, ?_⟩
  intro K2 hn2 hmem
  refine ⟨K2.filter (fun k => w.contains k), rfl, ?_⟩
  intro k hk
  have hA := (hmem k).mp hk
  exact List.mem_filter.mpr ⟨hk, (List.mem_filter.mp hA).2⟩

theorem ks_nOf (n : Nat) (w : List String) : KeyStable (.nOf n w) := by
  intro K A hn hok
  simp only [applyRuleKeys] at hok
  injection hok with h1
  by_cases hc : (K.filter (fun k => w.contains k)).length = n
  · rw [if_pos hc] at h1
    subst h1
    refine ⟨fun a ha => (List.mem_filter.mp ha).1, ?_⟩
    intro K2 hn2 hmem
    have hself : K2.filter (fun k => w.contains k) = K2 := by
      refine List.filter_eq_self.mpr ?_
      intro a ha
      exact (List.mem_filter.mp ((hmem a).mp ha)).2
    have hlen : K2.length = n := by
      have hperm : K2.Perm (K.filter (fun k => w.contains k)) :=
        (List.perm_ext_iff_of_nodup hn2 (hn.filter _)).mpr hmem
      rw [hperm.length_eq, hc]
    refine ⟨K2, ?_, fun k hk => hk⟩
    show Except.ok (if (K2.filter (fun k => w.contains k)).length = n then
        K2.filter (fun k => w.contains k) else []) = Except.ok K2
    rw [hself, hlen, if_pos rfl]
  · rw [if_neg hc] at h1
    subst h1
    have hK2nil : ∀ K2, K2.Nodup → (∀ k, k ∈ K2 ↔ k ∈ ([] : List String)) →
        K2 = [] := by
      intro K2 _ hmem
      cases K2 with
      | nil => rfl
      | cons a tl => exact absurd ((hmem a).mp (List.mem_cons_self a tl)) (by simp)
    refine ⟨fun a ha => absurd ha (by simp), ?_⟩
    intro K2 hn2 hmem
    rw [hK2nil K2 hn2 hmem]
    exact ⟨_, rfl, fun k hk => absurd hk (by simp)⟩

theorem ks_atLeastNOf (n : Nat) (w : List String) : KeyStable (.atLeastNOf n w) := by
  intro K A hn hok
  simp only [applyRuleKeys] at hok
  injection hok with h1
  by_cases hc : n ≤ (K.filter (fun k => w.contains k)).length
  · rw [if_pos hc] at h1
    subst h1
    refine ⟨fun a ha => (List.mem_filter.mp ha).1, ?_⟩
    intro K2 hn2 hmem
    have hself : K2.filter (fun k => w.contains k) = K2 := by
      refine List.filter_eq_self.mpr ?_
      intro a ha
      exact (List.mem_filter.mp ((hmem a).mp ha)).2
    have hlen : K2.length = (K.filter (fun k => w.contains k)).length := by
      have hperm : K2.Perm (K.filter (fun k => w.contains k)) :=
        (List.perm_ext_iff_of_nodup hn2 (hn.filter _)).mpr hmem
      exact hperm.length_eq
    refine ⟨K2, ?_, fun k hk => hk⟩
    simp only [applyRuleKeys, hself, hlen, if_pos hc]
  · rw [if_neg hc] at h1
    subst h1
    refine ⟨fun a ha => absurd ha (by simp), ?_⟩
    intro K2 hn2 hmem
    have hnil : K2 = [] := by
      cases K2 with
      | nil => rfl
      | cons a tl => exact absurd ((hmem a).mp (List.mem_cons_self a tl)) (by simp)
    subst hnil
    exact ⟨_, rfl, fun k hk => absurd hk (by simp)⟩

theorem ks_tvSome (ty : PyType) (av : Option (List Value)) :
    KeyStable (.terminalVariable (some ty) av) :=
  ks_const_empty _ (fun K => rfl)

theorem ks_tvNone (av : Option (List Value)) :
    KeyStable (.terminalVariable none av) := by
  intro K A hn hok
  exact absurd hok (by simp [applyRuleKeys])

theorem ks_tc (ty : PyType) (ai : Option (List Value)) (ri : Option (List Value)) :
    KeyStable (.terminalCollection ty ai ri) :=
  ks_const_empty _ (fun K => rfl)

theorem ks_ntc (ai : Option (List String)) (ri : Option (List String)) :
    KeyStable (.nonterminalCollection ai ri) :=
  ks_const_empty _ (fun K => rfl)

theorem combineKeys_two (r1 r2 : GRule) (K : List String) (o1 o2 : List String)
    (h1 : applyRuleKeys r1 K = .ok o1) (h2 : applyRuleKeys r2 K = .ok o2) :
    applyRuleKeys (.combineR [r1, r2]) K = .ok (sunion (sunion [] o1) o2) := by
  show (applyRuleKeys r1 K >>= fun out => combineKeys [r2] K (sunion [] out)) = _
  rw [h1]
  show (applyRuleKeys r2 K >>= fun out => combineKeys [] K
    (sunion (sunion [] o1) out)) = _
  rw [h2]
  rfl

theorem combineKeys_three (r1 r2 r3 : GRule) (K : List String)
    (o1 o2 o3 : List String)
    (h1 : applyRuleKeys r1 K = .ok o1) (h2 : applyRuleKeys r2 K = .ok o2)
    (h3 : applyRuleKeys r3 K = .ok o3) :
    applyRuleKeys (.combineR [r1, r2, r3]) K =
      .ok (sunion (sunion (sunion [] o1) o2) o3) := by
  show (applyRuleKeys r1 K >>= fun out => combineKeys [r2, r3] K (sunion [] out)) = _
  rw [h1]
  show (applyRuleKeys r2 K >>= fun out => combineKeys [r3] K
    (sunion (sunion [] o1) out)) = _
  rw [h2]
  show (applyRuleKeys r3 K >>= fun out => combineKeys [] K
    (sunion (sunion (sunion [] o1) o2) out)) = _
  rw [h3]
  rfl

theorem nOf_keys (n : Nat) (S K : List String) :
    applyRuleKeys (.nOf n S) K =
      .ok (if (K.filter (fun k => S.contains k)).length = n
           then K.filter (fun k => S.contains k) else []) := rfl

theorem filter_singleton_of_nodup (K : List String) (hn : K.Nodup) (x : String) :
    K.filter (fun k => ([x] : List String).contains k) =
      if x ∈ K then [x] else [] := by
  induction K with
  | nil => simp
  | cons h t ih =>
    have hn2 := List.nodup_cons.mp hn
    by_cases hx : h = x
    · subst hx
      rw [List.filter_cons_of_pos (by simp [scont_iff])]
      rw [ih hn2.2]
      have hnt : h ∉ t := hn2.1
      simp [hnt]
    · rw [List.filter_cons_of_neg (by simp [scont_iff]; exact hx)]
      rw [ih hn2.2]
      by_cases hxt : x ∈ t
      · rw [if_pos hxt, if_pos (List.mem_cons_of_mem h hxt)]
      · rw [if_neg hxt, if_neg (by
          simp [List.mem_cons, hxt]
          exact fun he => hx he.symm)]

theorem nOf1_keys (K : List String) (hn : K.Nodup) (x : String) :
    applyRuleKeys (.nOf 1 [x]) K = .ok (if x ∈ K then [x] else []) := by
  show Except.ok (if (K.filter (fun k => ([x] : List String).contains k)).length = 1
      then K.filter (fun k => ([x] : List String).contains k) else []) = _
  rw [filter_singleton_of_nodup K hn x]
  by_cases hx : x ∈ K
  · simp [hx]
  · simp [hx]

theorem ks_combo_nOf_anyOf (n : Nat) (S T : List String)
    (hdisj : ∀ k, k ∈ S → k ∉ T) :
    KeyStable (.combineR [.nOf n S, .anyOf T]) := by
  intro K A hn hok
  rw [combineKeys_two (.nOf n S) (.anyOf T) K
    (if (K.filter (fun k => S.contains k)).length = n
     then K.filter (fun k => S.contains k) else [])
    (K.filter (fun k => T.contains k)) rfl rfl] at hok
  injection hok with hA
  rw [sunion_nil_left] at hA
  constructor
  · intro a ha
    rw [← hA] at ha
    rcases mem_sunion.mp ha with h | h
    · by_cases hc : (K.filter (fun k => S.contains k)).length = n
      · rw [if_pos hc] at h
        exact (List.mem_filter.mp h).1
      · rw [if_neg hc] at h
        cases h
    · exact (List.mem_filter.mp h).1
  · intro K2 hn2 hmem
    by_cases hc : (K.filter (fun k => S.contains k)).length = n
    · rw [if_pos hc] at hA
      have hC2 : ∀ k, k ∈ K2.filter (fun k => S.contains k) ↔
          k ∈ K.filter (fun k => S.contains k) := by
        intro k
        constructor
        · intro hk
          obtain ⟨hk2, hkS⟩ := List.mem_filter.mp hk
          have hkA := (hmem k).mp hk2
          rw [← hA] at hkA
          rcases mem_sunion.mp hkA with h | h
          · exact h
          · exact absurd ((scont_iff T k).mp (List.mem_filter.mp h).2)
              (hdisj k ((scont_iff S k).mp hkS))
        · intro hk
          obtain ⟨hkK, hkS⟩ := List.mem_filter.mp hk
          have hkA : k ∈ A := by
            rw [← hA]
            exact mem_sunion.mpr (Or.inl hk)
          exact List.mem_filter.mpr ⟨(hmem k).mpr hkA, hkS⟩
      have hlen : (K2.filter (fun k => S.contains k)).length = n := by
        have hperm : (K2.filter (fun k => S.contains k)).Perm
            (K.filter (fun k => S.contains k)) :=
          (List.perm_ext_iff_of_nodup (hn2.filter _) (hn.filter _)).mpr hC2
        rw [hperm.length_eq, hc]
      rw [combineKeys_two (.nOf n S) (.anyOf T) K2
        (K2.filter (fun k => S.contains k))
        (K2.filter (fun k => T.contains k))
        (by rw [nOf_keys, if_pos hlen]) rfl]
      refine ⟨_, rfl, ?_⟩
      intro k hk
      rw [sunion_nil_left]
      have hkA := (hmem k).mp hk
      rw [← hA] at hkA
      rcases mem_sunion.mp hkA with h | h
      · refine mem_sunion.mpr (Or.inl ?_)
        exact List.mem_filter.mpr ⟨hk, (List.mem_filter.mp h).2⟩
      · refine mem_sunion.mpr (Or.inr ?_)
        exact List.mem_filter.mpr ⟨hk, (List.mem_filter.mp h).2⟩
    · rw [if_neg hc, sunion_nil_left] at hA
      have hC2nil : K2.filter (fun k => S.contains k) = [] := by
        rw [List.filter_eq_nil_iff]
        intro k hk
        intro hkS
        have hkA := (hmem k).mp hk
        rw [← hA] at hkA
        exact absurd ((scont_iff T k).mp (List.mem_filter.mp hkA).2)
          (hdisj k ((scont_iff S k).mp hkS))
      by_cases hzero : n = 0
      · subst hzero
        rw [combineKeys_two (.nOf 0 S) (.anyOf T) K2
          (K2.filter (fun k => S.contains k))
          (K2.filter (fun k => T.contains k))
          (by rw [nOf_keys, if_pos (by rw [hC2nil]; rfl)]) rfl]
        refine ⟨_, rfl, ?_⟩
        intro k hk
        rw [sunion_nil_left, hC2nil, sunion_nil_left]
        have hkA := (hmem k).mp hk
        rw [← hA] at hkA
        exact List.mem_filter.mpr ⟨hk, (List.mem_filter.mp hkA).2⟩
      · rw [combineKeys_two (.nOf n S) (.anyOf T) K2 []
          (K2.filter (fun k => T.contains k))
          (by rw [nOf_keys, if_neg (by
                rw [hC2nil]
                simpa using fun h => hzero h.symm)]) rfl]
        refine ⟨_, rfl, ?_⟩
        intro k hk
        rw [sunion_nil_left, sunion_nil_left]
        have hkA := (hmem k).mp hk
        rw [← hA] at hkA
        exact List.mem_filter.mpr ⟨hk, (List.mem_filter.mp hkA).2⟩

theorem ks_combo_two_nOf1 (a b : String) :
    KeyStable (.combineR [.nOf 1 [a], .nOf 1 [b]]) := by
  intro K A hn hok
  rw [combineKeys_two (.nOf 1 [a]) (.nOf 1 [b]) K
    (if a ∈ K then [a] else []) (if b ∈ K then [b] else [])
    (nOf1_keys K hn a) (nOf1_keys K hn b)] at hok
  injection hok with hA
  rw [sunion_nil_left] at hA
  have hmemA : ∀ k, k ∈ A ↔ (k = a ∧ a ∈ K) ∨ (k = b ∧ b ∈ K) := by
    intro k
    rw [← hA, mem_sunion]
    constructor
    · rintro (h | h)
      · by_cases ha : a ∈ K
        · rw [if_pos ha] at h
          exact Or.inl ⟨List.mem_singleton.mp h, ha⟩
        · rw [if_neg ha] at h
          cases h
      · by_cases hb : b ∈ K
        · rw [if_pos hb] at h
          exact Or.inr ⟨List.mem_singleton.mp h, hb⟩
        · rw [if_neg hb] at h
          cases h
    · rintro (⟨hk, ha⟩ | ⟨hk, hb⟩)
      · subst hk
        exact Or.inl (by rw [if_pos ha]; exact List.mem_singleton.mpr rfl)
      · subst hk
        exact Or.inr (by rw [if_pos hb]; exact List.mem_singleton.mpr rfl)
  constructor
  · intro x hx
    rcases (hmemA x).mp hx with ⟨hk, h⟩ | ⟨hk, h⟩ <;> (subst hk; exact h)
  · intro K2 hn2 hmem
    refine ⟨_, combineKeys_two (.nOf 1 [a]) (.nOf 1 [b]) K2
      (if a ∈ K2 then [a] else []) (if b ∈ K2 then [b] else [])
      (nOf1_keys K2 hn2 a) (nOf1_keys K2 hn2 b), ?_⟩
    intro k hk
    rw [sunion_nil_left]
    rcases (hmemA k).mp ((hmem k).mp hk) with ⟨hkeq, h⟩ | ⟨hkeq, h⟩
    · subst hkeq
      refine mem_sunion.mpr (Or.inl ?_)
      rw [if_pos hk]
      exact List.mem_singleton.mpr rfl
    · subst hkeq
      refine mem_sunion.mpr (Or.inr ?_)
      rw [if_pos hk]
      exact List.mem_singleton.mpr rfl

theorem ks_combo_three_nOf1 (a b c : String) :
    KeyStable (.combineR [.nOf 1 [a], .nOf 1 [b], .nOf 1 [c]]) := by
  intro K A hn hok
  rw [combineKeys_three (.nOf 1 [a]) (.nOf 1 [b]) (.nOf 1 [c]) K
    (if a ∈ K then [a] else []) (if b ∈ K then [b] else [])
    (if c ∈ K then [c] else [])
    (nOf1_keys K hn a) (nOf1_keys K hn b) (nOf1_keys K hn c)] at hok
  injection hok with hA
  rw [sunion_nil_left] at hA
  have hmemA : ∀ k, k ∈ A ↔
      (k = a ∧ a ∈ K) ∨ (k = b ∧ b ∈ K) ∨ (k = c ∧ c ∈ K) := by
    intro k
    rw [← hA, mem_sunion, mem_sunion]
    constructor
    · rintro ((h | h) | h)
      · by_cases ha : a ∈ K
        · rw [if_pos ha] at h
          exact Or.inl ⟨List.mem_singleton.mp h, ha⟩
        · rw [if_neg ha] at h
          cases h
      · by_cases hb : b ∈ K
        · rw [if_pos hb] at h
          exact Or.inr (Or.inl ⟨List.mem_singleton.mp h, hb⟩)
        · rw [if_neg hb] at h
          cases h
      · by_cases hc : c ∈ K
        · rw [if_pos hc] at h
          exact Or.inr (Or.inr ⟨List.mem_singleton.mp h, hc⟩)
        · rw [if_neg hc] at h
          cases h
    · rintro (⟨hk, ha⟩ | ⟨hk, hb⟩ | ⟨hk, hc⟩)
      · subst hk
        exact Or.inl (Or.inl (by rw [if_pos ha]; exact List.mem_singleton.mpr rfl))
      · subst hk
        exact Or.inl (Or.inr (by rw [if_pos hb]; exact List.mem_singleton.mpr rfl))
      · subst hk
        exact Or.inr (by rw [if_pos hc]; exact List.mem_singleton.mpr rfl)
  constructor
  · intro x hx
    rcases (hmemA x).mp hx with ⟨hk, h⟩ | ⟨hk, h⟩ | ⟨hk, h⟩ <;> (subst hk; exact h)
  · intro K2 hn2 hmem
    refine ⟨_, combineKeys_three (.nOf 1 [a]) (.nOf 1 [b]) (.nOf 1 [c]) K2
      (if a ∈ K2 then [a] else []) (if b ∈ K2 then [b] else [])
      (if c ∈ K2 then [c] else [])
      (nOf1_keys K2 hn2 a) (nOf1_keys K2 hn2 b) (nOf1_keys K2 hn2 c), ?_⟩
    intro k hk
    rw [sunion_nil_left]
    rcases (hmemA k).mp ((hmem k).mp hk) with ⟨hkeq, h⟩ | ⟨hkeq, h⟩ | ⟨hkeq, h⟩
    · subst hkeq
      refine mem_sunion.mpr (Or.inl (mem_sunion.mpr (Or.inl ?_)))
      rw [if_pos hk]
      exact List.mem_singleton.mpr rfl
    · subst hkeq
      refine mem_sunion.mpr (Or.inl (mem_sunion.mpr (Or.inr ?_)))
      rw [if_pos hk]
      exact List.mem_singleton.mpr rfl
    · subst hkeq
      refine mem_sunion.mpr (Or.inr ?_)
      rw [if_pos hk]
      exact List.mem_singleton.mpr rfl

theorem ks_combo_nOf1_anyR (x : String) :
    KeyStable (.combineR [.nOf 1 [x], .anyR]) := by
  intro K A hn hok
  rw [combineKeys_two (.nOf 1 [x]) .anyR K (if x ∈ K then [x] else []) K
    (nOf1_keys K hn x) rfl] at hok
  injection hok with hA
  rw [sunion_nil_left] at hA
  constructor
  · intro k hk
    rw [← hA] at hk
    rcases mem_sunion.mp hk with h | h
    · by_cases hx : x ∈ K
      · rw [if_pos hx] at h
        rw [List.mem_singleton.mp h]
        exact hx
      · rw [if_neg hx] at h
        cases h
    · exact h
  · intro K2 hn2 hmem
    refine ⟨_, combineKeys_two (.nOf 1 [x]) .anyR K2 (if x ∈ K2 then [x] else []) K2
      (nOf1_keys K2 hn2 x) rfl, ?_⟩
    intro k hk
    rw [sunion_nil_left]
    exact mem_sunion.mpr (Or.inr hk)

theorem ks_combo_tc_tv :
    KeyStable (.combineR [.terminalCollection .tStr none none,
      .terminalVariable (some .tStr) none]) :=
  ks_const_empty _ (fun K => rfl)

theorem scalarEq_refl_hashable (x : Value) (h : isHashable x = true) :
    scalarEq x x = true := by
  cases x <;> simp_all [isHashable, scalarEq, toRat]

theorem scalarEq_trans {a b c : Value} (h1 : scalarEq a b = true)
    (h2 : scalarEq b c = true) : scalarEq a c = true := by
  cases a <;> cases b <;> cases c <;> simp_all [scalarEq, toRat]

theorem setMem_iff {x : Value} {l : List Value} :
    setMem x l = true ↔ ∃ y ∈ l, scalarEq x y = true := by
  simp [setMem, List.any_eq_true]

theorem setMem_append {x : Value} {a b : List Value} :
    setMem x (a ++ b) = true ↔ setMem x a = true ∨ setMem x b = true := by
  simp [setMem, List.any_eq_true]

theorem pySetInsert_char {acc : List Value} {x : Value} {S : List Value}
    (h : pySetInsert acc x = .ok S) :
    ∀ z, setMem z S = true ↔ setMem z acc = true ∨ scalarEq z x = true := by
  intro z
  unfold pySetInsert at h
  by_cases hh : isHashable x = true
  · rw [if_pos hh] at h
    injection h with h1
    by_cases hm : setMem x acc = true
    · rw [if_pos hm] at h1
      subst h1
      constructor
      · exact Or.inl
      · rintro (h | h)
        · exact h
        · obtain ⟨y, hy, he⟩ := setMem_iff.mp hm
          exact setMem_iff.mpr ⟨y, hy, scalarEq_trans h he⟩
    · rw [if_neg hm] at h1
      subst h1
      rw [setMem_append]
      constructor
      · rintro (h | h)
        · exact Or.inl h
        · obtain ⟨y, hy, he⟩ := setMem_iff.mp h
          rw [List.mem_singleton.mp hy] at he
          exact Or.inr he
      · rintro (h | h)
        · exact Or.inl h
        · exact Or.inr (setMem_iff.mpr ⟨x, List.mem_singleton.mpr rfl, h⟩)
  · rw [if_neg hh] at h
    cases h

theorem pySetInsert_hashable {acc : List Value} {x : Value} {S : List Value}
    (h : pySetInsert acc x = .ok S) : isHashable x = true := by
  unfold pySetInsert at h
  by_cases hh : isHashable x = true
  · exact hh
  · rw [if_neg hh] at h
    cases h

theorem pySetOfAux_char {l : List Value} :
    ∀ {acc S : List Value}, pySetOfAux acc l = .ok S →
    ∀ z, setMem z S = true ↔ setMem z acc = true ∨ ∃ y ∈ l, scalarEq z y = true := by
  induction l with
  | nil =>
    intro acc S h z
    injection h with h1
    subst h1
    simp
  | cons x xs ih =>
    intro acc S h z
    show setMem z S = true ↔ _ ∨ ∃ y ∈ x :: xs, scalarEq z y = true
    have hstep : (do pySetOfAux (← pySetInsert acc x) xs) = Except.ok S := h
    cases hins : pySetInsert acc x with
    | error e => rw [hins] at hstep; cases hstep
    | ok acc2 =>
      rw [hins] at hstep
      rw [ih hstep z, pySetInsert_char hins z]
      constructor
      · rintro ((h | h) | ⟨y, hy, he⟩)
        · exact Or.inl h
        · exact Or.inr ⟨x, List.mem_cons_self x xs, h⟩
        · exact Or.inr ⟨y, List.mem_cons_of_mem x hy, he⟩
      · rintro (h | ⟨y, hy, he⟩)
        · exact Or.inl (Or.inl h)
        · rcases List.mem_cons.mp hy with rfl | hy2
          · exact Or.inl (Or.inr he)
          · exact Or.inr ⟨y, hy2, he⟩

theorem pySetOfAux_hashable {l : List Value} :
    ∀ {acc S : List Value}, pySetOfAux acc l = .ok S →
    ∀ x ∈ l, isHashable x = true := by
  induction l with
  | nil => intro acc S h x hx; cases hx
  | cons y ys ih =>
    intro acc S h x hx
    have hstep : (do pySetOfAux (← pySetInsert acc y) ys) = Except.ok S := h
    cases hins : pySetInsert acc y with
    | error e => rw [hins] at hstep; cases hstep
    | ok acc2 =>
      rw [hins] at hstep
      rcases List.mem_cons.mp hx with rfl | hx2
      · exact pySetInsert_hashable hins
      · exact ih hstep x hx2

theorem pySetOfAux_ok_of_hashable {l : List Value} :
    ∀ acc, (∀ x ∈ l, isHashable x = true) →
    ∃ S, pySetOfAux acc l = .ok S := by
  induction l with
  | nil => intro acc hh; exact ⟨acc, rfl⟩
  | cons y ys ih =>
    intro acc hh
    have hy : isHashable y = true := hh y (List.mem_cons_self y ys)
    obtain ⟨S, hS⟩ := ih (if setMem y acc then acc else acc ++ [y])
      (fun x hx => hh x (List.mem_cons_of_mem y hx))
    refine ⟨S, ?_⟩
    show (do pySetOfAux (← pySetInsert acc y) ys) = Except.ok S
    rw [show pySetInsert acc y = .ok (if setMem y acc then acc else acc ++ [y]) by
      unfold pySetInsert; rw [if_pos hy]]
    exact hS

theorem pySetOfAux_mem {l : List Value} {acc S : List Value}
    (h : pySetOfAux acc l = .ok S) {x : Value} (hx : x ∈ l) :
    setMem x S = true :=
  (pySetOfAux_char h x).mpr (Or.inr ⟨x, hx,
    scalarEq_refl_hashable x (pySetOfAux_hashable h x hx)⟩)

theorem pyMem_vSet_terminal {x : Value} (S : List Value)
    (h : isTerminalV x = true) : pyMem x (vSet S) = setMem x S := by
  show S.any (fun y => pyEq x y) = S.any (fun y => scalarEq x y)
  induction S with
  | nil => rfl
  | cons y ys ih =>
    show (pyEq x y || _) = (scalarEq x y || _)
    rw [pyEq_of_terminal x y h, ih]

theorem pyMem_vList_of_mem {x : Value} {l : List Value} (hx : x ∈ l)
    (hr : pyEq x x = true) : pyMem x (vList l) = true := by
  show l.any (fun y => pyEq x y) = true
  rw [List.any_eq_true]
  exact ⟨x, hx, hr⟩

theorem pyMem_vList_elim {x : Value} {l : List Value}
    (h : pyMem x (vList l) = true) : ∃ y ∈ l, pyEq x y = true := by
  rw [show pyMem x (vList l) = l.any (fun y => pyEq x y) from rfl,
    List.any_eq_true] at h
  exact h

theorem itemsRel_dict_mem {vi : Value} {items res : List Value}
    (h : ItemsRel vi items res) :
    ∀ k w, vDict [(k, w)] ∈ res → pyMem (vStr k) vi = true := by
  induction h with
  | nil => intro k w hk; cases hk
  | keepScalar ht hm hrel ih =>
    intro k w hk
    rcases List.mem_cons.mp hk with he | hk2
    · rw [← he] at ht
      cases ht
    · exact ih k w hk2
  | dropScalar ht hm hrel ih => exact ih
  | keepDict hm hrel ih =>
    intro k w hk
    rcases List.mem_cons.mp hk with he | hk2
    · injection he with h1
      injection h1 with h2
      injection h2 with h3
      rw [h3]
      exact hm
    · exact ih k w hk2
  | dropDict hm hrel ih => exact ih
  | dropOther ht hd hrel ih => exact ih

theorem itemsRel_no_dicts {vi : Value} {items res : List Value}
    (h : ItemsRel vi items res) (hnd : ∀ x ∈ items, isDictV x = false) :
    ∀ x ∈ res, isDictV x = false := by
  induction h with
  | nil => intro x hx; cases hx
  | keepScalar ht hm hrel ih =>
    intro x hx
    rcases List.mem_cons.mp hx with rfl | hx2
    · exact hnd x (List.mem_cons_self _ _)
    · exact ih (fun y hy => hnd y (List.mem_cons_of_mem _ hy)) x hx2
  | dropScalar ht hm hrel ih =>
    exact ih (fun y hy => hnd y (List.mem_cons_of_mem _ hy))
  | keepDict hm hrel ih =>
    intro x hx
    have := hnd _ (List.mem_cons_self _ _)
    cases this
  | dropDict hm hrel ih =>
    exact ih (fun y hy => hnd y (List.mem_cons_of_mem _ hy))
  | dropOther ht hd hrel ih =>
    exact ih (fun y hy => hnd y (List.mem_cons_of_mem _ hy))

theorem itemsRel_all_dicts {vi : Value} {items res : List Value}
    (h : ItemsRel vi items res) (hd : ∀ x ∈ items, isDictV x = true) :
    ∀ x ∈ res, ∃ k w, x = vDict [(k, w)] := by
  induction h with
  | nil => intro x hx; cases hx
  | @keepScalar y tl2 res2 ht hm hrel ih =>
    intro x hx
    have h1 := hd y (List.mem_cons_self _ _)
    cases y <;> simp_all [isDictV, isTerminalV]
  | dropScalar ht hm hrel ih =>
    exact ih (fun y hy => hd y (List.mem_cons_of_mem _ hy))
  | keepDict hm hrel ih =>
    intro x hx
    rcases List.mem_cons.mp hx with rfl | hx2
    · exact ⟨_, _, rfl⟩
    · exact ih (fun y hy => hd y (List.mem_cons_of_mem _ hy)) x hx2
  | dropDict hm hrel ih =>
    exact ih (fun y hy => hd y (List.mem_cons_of_mem _ hy))
  | dropOther ht hd2 hrel ih =>
    exact ih (fun y hy => hd y (List.mem_cons_of_mem _ hy))

theorem itemsRel_of_validateItems {g : List (String × GRule)} :
    ∀ {items : List Value} {path : String} {vi : Value} {res : List Value},
      validateItems g items path vi = .ok res → ItemsRel vi items res := by
  intro items
  induction items with
  | nil =>
    intro path vi res h
    injection h with h1
    subst h1
    exact .nil
  | cons item tl ih =>
    intro path vi res h
    cases item with
    | vNull =>
      exact .dropOther rfl rfl (ih h)
    | vList l =>
      exact .dropOther rfl rfl (ih h)
    | vSet l =>
      exact .dropOther rfl rfl (ih h)
    | vBool b =>
      by_cases hm : pyMem (vBool b) vi = true
      · rw [show validateItems g (vBool b :: tl) path vi =
            (if pyMem (vBool b) vi = true then do
              let rest ← validateItems g tl path vi
              Except.ok (vBool b :: rest)
            else validateItems g tl path vi) from rfl, if_pos hm] at h
        cases hrest : validateItems g tl path vi with
        | error e => rw [hrest] at h; cases h
        | ok rest =>
          rw [hrest] at h
          injection h with h1
          subst h1
          exact .keepScalar rfl hm (ih hrest)
      · rw [show validateItems g (vBool b :: tl) path vi =
            (if pyMem (vBool b) vi = true then do
              let rest ← validateItems g tl path vi
              Except.ok (vBool b :: rest)
            else validateItems g tl path vi) from rfl, if_neg hm] at h
        exact .dropScalar rfl (Bool.not_eq_true _ ▸ Bool.of_not_eq_true hm) (ih h)
    | vInt n =>
      by_cases hm : pyMem (vInt n) vi = true
      · rw [show validateItems g (vInt n :: tl) path vi =
            (if pyMem (vInt n) vi = true then do
              let rest ← validateItems g tl path vi
              Except.ok (vInt n :: rest)
            else validateItems g tl path vi) from rfl, if_pos hm] at h
        cases hrest : validateItems g tl path vi with
        | error e => rw [hrest] at h; cases h
        | ok rest =>
          rw [hrest] at h
          injection h with h1
          subst h1
          exact .keepScalar rfl hm (ih hrest)
      · rw [show validateItems g (vInt n :: tl) path vi =
            (if pyMem (vInt n) vi = true then do
              let rest ← validateItems g tl path vi
              Except.ok (vInt n :: rest)
            else validateItems g tl path vi) from rfl, if_neg hm] at h
        exact .dropScalar rfl (Bool.of_not_eq_true hm) (ih h)
    | vFloat q =>
      by_cases hm : pyMem (vFloat q) vi = true
      · rw [show validateItems g (vFloat q :: tl) path vi =
            (if pyMem (vFloat q) vi = true then do
              let rest ← validateItems g tl path vi
              Except.ok (vFloat q :: rest)
            else validateItems g tl path vi) from rfl, if_pos hm] at h
        cases hrest : validateItems g tl path vi with
        | error e => rw [hrest] at h; cases h
        | ok rest =>
          rw [hrest] at h
          injection h with h1
          subst h1
          exact .keepScalar rfl hm (ih hrest)
      · rw [show validateItems g (vFloat q :: tl) path vi =
            (if pyMem (vFloat q) vi = true then do
              let rest ← validateItems g tl path vi
              Except.ok (vFloat q :: rest)
            else validateItems g tl path vi) from rfl, if_neg hm] at h
        exact .dropScalar rfl (Bool.of_not_eq_true hm) (ih h)
    | vStr s =>
      by_cases hm : pyMem (vStr s) vi = true
      · rw [show validateItems g (vStr s :: tl) path vi =
            (if pyMem (vStr s) vi = true then do
              let rest ← validateItems g tl path vi
              Except.ok (vStr s :: rest)
            else validateItems g tl path vi) from rfl, if_pos hm] at h
        cases hrest : validateItems g tl path vi with
        | error e => rw [hrest] at h; cases h
        | ok rest =>
          rw [hrest] at h
          injection h with h1
          subst h1
          exact .keepScalar rfl hm (ih hrest)
      · rw [show validateItems g (vStr s :: tl) path vi =
            (if pyMem (vStr s) vi = true then do
              let rest ← validateItems g tl path vi
              Except.ok (vStr s :: rest)
            else validateItems g tl path vi) from rfl, if_neg hm] at h
        exact .dropScalar rfl (Bool.of_not_eq_true hm) (ih h)
    | vDict es =>
      match es with
      | [] => cases h
      | [(k, v)] =>
        by_cases hm : pyMem (vStr k) vi = true
        · rw [show validateItems g (vDict [(k, v)] :: tl) path vi =
              (if pyMem (vStr k) vi = true then do
                let w ← validateAux g v (path ++ "." ++ k)
                let rest ← validateItems g tl path vi
                Except.ok (vDict [(k, w)] :: rest)
              else validateItems g tl path vi) from rfl, if_pos hm] at h
          cases hw : validateAux g v (path ++ "." ++ k) with
          | error e => rw [hw] at h; cases h
          | ok w =>
            rw [hw] at h
            cases hrest : validateItems g tl path vi with
            | error e => rw [hrest] at h; cases h
            | ok rest =>
              rw [hrest] at h
              injection h with h1
              subst h1
              exact .keepDict hm (ih hrest)
        · rw [show validateItems g (vDict [(k, v)] :: tl) path vi =
              (if pyMem (vStr k) vi = true then do
                let w ← validateAux g v (path ++ "." ++ k)
                let rest ← validateItems g tl path vi
                Except.ok (vDict [(k, w)] :: rest)
              else validateItems g tl path vi) from rfl, if_neg hm] at h
          exact .dropDict (Bool.of_not_eq_true hm) (ih h)
      | (k1, v1) :: (k2, v2) :: rest => cases h

theorem validateItems_dict_values {g : List (String × GRule)} :
    ∀ {items : List Value} {path : String} {vi : Value} {res : List Value},
      validateItems g items path vi = .ok res →
      ∀ k w, vDict [(k, w)] ∈ res →
        ∃ v, vDict [(k, v)] ∈ items ∧
          validateAux g v (path ++ "." ++ k) = .ok w := by
  intro items
  induction items with
  | nil =>
    intro path vi res h k w hkw
    injection h with h1
    subst h1
    cases hkw
  | cons item tl ih =>
    intro path vi res h k w hkw
    cases item with
    | vNull =>
      obtain ⟨v, hv1, hv2⟩ := ih h k w hkw
      exact ⟨v, List.mem_cons_of_mem _ hv1, hv2⟩
    | vList l =>
      obtain ⟨v, hv1, hv2⟩ := ih h k w hkw
      exact ⟨v, List.mem_cons_of_mem _ hv1, hv2⟩
    | vSet l =>
      obtain ⟨v, hv1, hv2⟩ := ih h k w hkw
      exact ⟨v, List.mem_cons_of_mem _ hv1, hv2⟩
    | vBool b =>
      by_cases hm : pyMem (vBool b) vi = true
      · rw [show validateItems g (vBool b :: tl) path vi =
            (if pyMem (vBool b) vi = true then do
              let rest ← validateItems g tl path vi
              Except.ok (vBool b :: rest)
            else validateItems g tl path vi) from rfl, if_pos hm] at h
        cases hrest : validateItems g tl path vi with
        | error e => rw [hrest] at h; cases h
        | ok rest =>
          rw [hrest] at h
          injection h with h1
          subst h1
          rcases List.mem_cons.mp hkw with he | hk2
          · cases he
          · obtain ⟨v, hv1, hv2⟩ := ih hrest k w hk2
            exact ⟨v, List.mem_cons_of_mem _ hv1, hv2⟩
      · rw [show validateItems g (vBool b :: tl) path vi =
            (if pyMem (vBool b) vi = true then do
              let rest ← validateItems g tl path vi
              Except.ok (vBool b :: rest)
            else validateItems g tl path vi) from rfl, if_neg hm] at h
        obtain ⟨v, hv1, hv2⟩ := ih h k w hkw
        exact ⟨v, List.mem_cons_of_mem _ hv1, hv2⟩
    | vInt n =>
      by_cases hm : pyMem (vInt n) vi = true
      · rw [show validateItems g (vInt n :: tl) path vi =
            (if pyMem (vInt n) vi = true then do
              let rest ← validateItems g tl path vi
              Except.ok (vInt n :: rest)
            else validateItems g tl path vi) from rfl, if_pos hm] at h
        cases hrest : validateItems g tl path vi with
        | error e => rw [hrest] at h; cases h
        | ok rest =>
          rw [hrest] at h
          injection h with h1
          subst h1
          rcases List.mem_cons.mp hkw with he | hk2
          · cases he
          · obtain ⟨v, hv1, hv2⟩ := ih hrest k w hk2
            exact ⟨v, List.mem_cons_of_mem _ hv1, hv2⟩
      · rw [show validateItems g (vInt n :: tl) path vi =
            (if pyMem (vInt n) vi = true then do
              let rest ← validateItems g tl path vi
              Except.ok (vInt n :: rest)
            else validateItems g tl path vi) from rfl, if_neg hm] at h
        obtain ⟨v, hv1, hv2⟩ := ih h k w hkw
        exact ⟨v, List.mem_cons_of_mem _ hv1, hv2⟩
    | vFloat q =>
      by_cases hm : pyMem (vFloat q) vi = true
      · rw [show validateItems g (vFloat q :: tl) path vi =
            (if pyMem (vFloat q) vi = true then do
              let rest ← validateItems g tl path vi
              Except.ok (vFloat q :: rest)
            else validateItems g tl path vi) from rfl, if_pos hm] at h
        cases hrest : validateItems g tl path vi with
        | error e => rw [hrest] at h; cases h
        | ok rest =>
          rw [hrest] at h
          injection h with h1
          subst h1
          rcases List.mem_cons.mp hkw with he | hk2
          · cases he
          · obtain ⟨v, hv1, hv2⟩ := ih hrest k w hk2
            exact ⟨v, List.mem_cons_of_mem _ hv1, hv2⟩
      · rw [show validateItems g (vFloat q :: tl) path vi =
            (if pyMem (vFloat q) vi = true then do
              let rest ← validateItems g tl path vi
              Except.ok (vFloat q :: rest)
            else validateItems g tl path vi) from rfl, if_neg hm] at h
        obtain ⟨v, hv1, hv2⟩ := ih h k w hkw
        exact ⟨v, List.mem_cons_of_mem _ hv1, hv2⟩
    | vStr s =>
      by_cases hm : pyMem (vStr s) vi = true
      · rw [show validateItems g (vStr s :: tl) path vi =
            (if pyMem (vStr s) vi = true then do
              let rest ← validateItems g tl path vi
              Except.ok (vStr s :: rest)
            else validateItems g tl path vi) from rfl, if_pos hm] at h
        cases hrest : validateItems g tl path vi with
        | error e => rw [hrest] at h; cases h
        | ok rest =>
          rw [hrest] at h
          injection h with h1
          subst h1
          rcases List.mem_cons.mp hkw with he | hk2
          · cases he
          · obtain ⟨v, hv1, hv2⟩ := ih hrest k w hk2
            exact ⟨v, List.mem_cons_of_mem _ hv1, hv2⟩
      · rw [show validateItems g (vStr s :: tl) path vi =
            (if pyMem (vStr s) vi = true then do
              let rest ← validateItems g tl path vi
              Except.ok (vStr s :: rest)
            else validateItems g tl path vi) from rfl, if_neg hm] at h
        obtain ⟨v, hv1, hv2⟩ := ih h k w hkw
        exact ⟨v, List.mem_cons_of_mem _ hv1, hv2⟩
    | vDict es =>
      match es with
      | [] => cases h
      | [(k1, v1)] =>
        by_cases hm : pyMem (vStr k1) vi = true
        · rw [show validateItems g (vDict [(k1, v1)] :: tl) path vi =
              (if pyMem (vStr k1) vi = true then do
                let w ← validateAux g v1 (path ++ "." ++ k1)
                let rest ← validateItems g tl path vi
                Except.ok (vDict [(k1, w)] :: rest)
              else validateItems g tl path vi) from rfl, if_pos hm] at h
          cases hw : validateAux g v1 (path ++ "." ++ k1) with
          | error e => rw [hw] at h; cases h
          | ok w1 =>
            rw [hw] at h
            cases hrest : validateItems g tl path vi with
            | error e => rw [hrest] at h; cases h
            | ok rest =>
              rw [hrest] at h
              injection h with h1
              subst h1
              rcases List.mem_cons.mp hkw with he | hk2
              · injection he with h2
                injection h2 with h3
                injection h3 with h4 h5
                subst h4
                refine ⟨v1, List.mem_cons_self _ _, ?_⟩
                rw [hw, h5]
              · obtain ⟨v, hv1, hv2⟩ := ih hrest k w hk2
                exact ⟨v, List.mem_cons_of_mem _ hv1, hv2⟩
        · rw [show validateItems g (vDict [(k1, v1)] :: tl) path vi =
              (if pyMem (vStr k1) vi = true then do
                let w ← validateAux g v1 (path ++ "." ++ k1)
                let rest ← validateItems g tl path vi
                Except.ok (vDict [(k1, w)] :: rest)
              else validateItems g tl path vi) from rfl, if_neg hm] at h
          obtain ⟨v, hv1, hv2⟩ := ih h k w hkw
          exact ⟨v, List.mem_cons_of_mem _ hv1, hv2⟩
      | (k1, v1) :: (k2, v2) :: rest2 => cases h

theorem validateItems_all_kept (g : List (String × GRule)) :
    ∀ (res : List Value) (path : String) (vi2 : Value),
    (∀ x ∈ res, isTerminalV x = true ∨ ∃ k w, x = vDict [(k, w)]) →
    (∀ x ∈ res, isTerminalV x = true → pyMem x vi2 = true) →
    (∀ k w, vDict [(k, w)] ∈ res → pyMem (vStr k) vi2 = true) →
    (∀ k w, vDict [(k, w)] ∈ res → validateAux g w (path ++ "." ++ k) = .ok w) →
    validateItems g res path vi2 = .ok res := by
  intro res
  induction res with
  | nil => intro path vi2 _ _ _ _; rfl
  | cons x tl ih =>
    intro path vi2 hshape hks hkd hval
    have hrest := ih path vi2 (fun y hy => hshape y (List.mem_cons_of_mem x hy))
      (fun y hy => hks y (List.mem_cons_of_mem x hy))
      (fun k w hy => hkd k w (List.mem_cons_of_mem x hy))
      (fun k w hy => hval k w (List.mem_cons_of_mem x hy))
    rcases hshape x (List.mem_cons_self x tl) with hterm | ⟨k, w, rfl⟩
    · have hm := hks x (List.mem_cons_self x tl) hterm
      cases x with
      | vBool b =>
        show (if pyMem (vBool b) vi2 = true then do
            let rest ← validateItems g tl path vi2
            Except.ok (vBool b :: rest)
          else validateItems g tl path vi2) = Except.ok (vBool b :: tl)
        rw [if_pos hm, hrest]
        rfl
      | vInt n =>
        show (if pyMem (vInt n) vi2 = true then do
            let rest ← validateItems g tl path vi2
            Except.ok (vInt n :: rest)
          else validateItems g tl path vi2) = Except.ok (vInt n :: tl)
        rw [if_pos hm, hrest]
        rfl
      | vFloat q =>
        show (if pyMem (vFloat q) vi2 = true then do
            let rest ← validateItems g tl path vi2
            Except.ok (vFloat q :: rest)
          else validateItems g tl path vi2) = Except.ok (vFloat q :: tl)
        rw [if_pos hm, hrest]
        rfl
      | vStr s =>
        show (if pyMem (vStr s) vi2 = true then do
            let rest ← validateItems g tl path vi2
            Except.ok (vStr s :: rest)
          else validateItems g tl path vi2) = Except.ok (vStr s :: tl)
        rw [if_pos hm, hrest]
        rfl
      | vNull => simp [isTerminalV] at hterm
      | vList l => simp [isTerminalV] at hterm
      | vDict es => simp [isTerminalV] at hterm
      | vSet l => simp [isTerminalV] at hterm
    · have hm := hkd k w (List.mem_cons_self _ _)
      have hv := hval k w (List.mem_cons_self _ _)
      show (if pyMem (vStr k) vi2 = true then do
          let w2 ← validateAux g w (path ++ "." ++ k)
          let rest ← validateItems g tl path vi2
          Except.ok (vDict [(k, w2)] :: rest)
        else validateItems g tl path vi2) = Except.ok (vDict [(k, w)] :: tl)
      rw [if_pos hm, hv, hrest]
      rfl

theorem isTerminalV_of_isInstTy {ty : PyType} {x : Value}
    (h : isInstTy ty x = true) : isTerminalV x = true := by
  cases x <;> simp_all [isInstTy, isTerminalV]

theorem isHashable_of_isTerminalV {x : Value} (h : isTerminalV x = true) :
    isHashable x = true := by
  cases x <;> simp_all [isTerminalV, isHashable]

theorem not_isDictV_of_isHashable {x : Value} (h : isHashable x = true) :
    isDictV x = false := by
  cases x <;> simp_all [isHashable, isDictV]

theorem isTerminalV_of_shape_not_dict {x : Value}
    (hs : isTerminalV x = true ∨ ∃ k w, x = vDict [(k, w)])
    (hd : isDictV x = false) : isTerminalV x = true := by
  rcases hs with h | ⟨k, w, rfl⟩
  · exact h
  · simp [isDictV] at hd

theorem pySetOfAux_mem_src {l : List Value} :
    ∀ {acc S : List Value}, pySetOfAux acc l = .ok S →
    ∀ x ∈ S, x ∈ acc ∨ x ∈ l := by
  induction l with
  | nil =>
    intro acc S h x hx
    injection h with h1
    subst h1
    exact Or.inl hx
  | cons y ys ih =>
    intro acc S h x hx
    have hstep : (do pySetOfAux (← pySetInsert acc y) ys) = Except.ok S := h
    cases hins : pySetInsert acc y with
    | error e => rw [hins] at hstep; cases hstep
    | ok acc2 =>
      rw [hins] at hstep
      rcases ih hstep x hx with hx2 | hx2
      · unfold pySetInsert at hins
        by_cases hh : isHashable y = true
        · rw [if_pos hh] at hins
          injection hins with h2
          by_cases hm : setMem y acc = true
          · rw [if_pos hm] at h2
            subst h2
            exact Or.inl hx2
          · rw [if_neg hm] at h2
            subst h2
            rcases List.mem_append.mp hx2 with h3 | h3
            · exact Or.inl h3
            · exact Or.inr (by rw [List.mem_singleton.mp h3]; exact
                List.mem_cons_self y ys)
        · rw [if_neg hh] at hins
          cases hins
      · exact Or.inr (List.mem_cons_of_mem y hx2)

theorem ntcAllKeys_singletons {l : List Value}
    (hs : ∀ x ∈ l, ∃ k w, x = vDict [(k, w)]) :
    ∀ acc, ∃ out, ntcAllKeys acc l = .ok out := by
  induction l with
  | nil => intro acc; exact ⟨acc, rfl⟩
  | cons x xs ih =>
    intro acc
    obtain ⟨k, w, rfl⟩ := hs x (List.mem_cons_self x xs)
    obtain ⟨out, hout⟩ := ih (fun y hy => hs y (List.mem_cons_of_mem _ hy))
      (if setMem (vStr k) acc then acc else acc ++ [vStr k])
    refine ⟨out, ?_⟩
    show (do
      let f ← pyFirstElem (vDict [(k, w)])
      ntcAllKeys (← pySetInsert acc f) xs) = Except.ok out
    show ntcAllKeys (if setMem (vStr k) acc then acc else acc ++ [vStr k]) xs =
      Except.ok out
    exact hout

theorem ntcAccepted_cons_cases (ai : List String) (x : Value) (xs : List Value)
    (acc : List Value) :
    (∃ k v, x = vDict [(k, v)]) ∨
      ntcAccepted (some ai) acc (x :: xs) = ntcAccepted (some ai) acc xs := by
  cases x with
  | vDict es =>
    match es with
    | [] => exact Or.inr rfl
    | [(k, v)] => exact Or.inl ⟨k, v, rfl⟩
    | (k1, v1) :: (k2, v2) :: tl => exact Or.inr rfl
  | vNull => exact Or.inr rfl
  | vBool b => exact Or.inr rfl
  | vInt n => exact Or.inr rfl
  | vFloat q => exact Or.inr rfl
  | vStr s => exact Or.inr rfl
  | vList l => exact Or.inr rfl
  | vSet l => exact Or.inr rfl

theorem ntcAccepted_dict_eq (ai : List String) (k : String) (v : Value)
    (xs acc : List Value) :
    ntcAccepted (some ai) acc (vDict [(k, v)] :: xs) =
      if ai.contains k = true then
        ntcAccepted (some ai)
          (if setMem (vStr k) acc then acc else acc ++ [vStr k]) xs
      else ntcAccepted (some ai) acc xs := by
  show (if ai.contains k = true then
      (pySetInsert acc (vStr k) >>= fun a => ntcAccepted (some ai) a xs)
    else ntcAccepted (some ai) acc xs) = _
  by_cases hc : ai.contains k = true
  · rw [if_pos hc, if_pos hc]
    rfl
  · rw [if_neg hc, if_neg hc]

theorem ntcAccepted_some_ok (ai : List String) {l : List Value} :
    ∀ acc, ∃ S, ntcAccepted (some ai) acc l = .ok (vSet S) := by
  induction l with
  | nil => intro acc; exact ⟨acc, rfl⟩
  | cons x xs ih =>
    intro acc
    rcases ntcAccepted_cons_cases ai x xs acc with ⟨k, v, rfl⟩ | heq
    · rw [ntcAccepted_dict_eq]
      by_cases hc : ai.contains k = true
      · rw [if_pos hc]
        exact ih _
      · rw [if_neg hc]
        exact ih acc
    · rw [heq]
      exact ih acc

theorem ntcAccepted_mono (ai : List String) {l : List Value} :
    ∀ {acc S : List Value} {z : Value},
      ntcAccepted (some ai) acc l = .ok (vSet S) →
      setMem z acc = true → setMem z S = true := by
  induction l with
  | nil =>
    intro acc S z h hz
    injection h with h1
    injection h1 with h2
    rw [← h2]
    exact hz
  | cons x xs ih =>
    intro acc S z h hz
    rcases ntcAccepted_cons_cases ai x xs acc with ⟨k, v, rfl⟩ | heq
    · rw [ntcAccepted_dict_eq] at h
      by_cases hc : ai.contains k = true
      · rw [if_pos hc] at h
        by_cases hm : setMem (vStr k) acc = true
        · rw [if_pos hm] at h
          exact ih h hz
        · rw [if_neg hm] at h
          exact ih h (setMem_append.mpr (Or.inl hz))
      · rw [if_neg hc] at h
        exact ih h hz
    · rw [heq] at h
      exact ih h hz

theorem ntcAccepted_mem (ai : List String) {l : List Value} :
    ∀ {acc S : List Value} {k : String} {w : Value},
      ntcAccepted (some ai) acc l = .ok (vSet S) →
      vDict [(k, w)] ∈ l → ai.contains k = true →
      setMem (vStr k) S = true := by
  induction l with
  | nil => intro acc S k w h hm hc; cases hm
  | cons x xs ih =>
    intro acc S k w h hm hc
    rcases List.mem_cons.mp hm with he | hm2
    · rw [← he] at h
      rw [ntcAccepted_dict_eq, if_pos hc] at h
      by_cases hmem : setMem (vStr k) acc = true
      · rw [if_pos hmem] at h
        exact ntcAccepted_mono ai h hmem
      · rw [if_neg hmem] at h
        exact ntcAccepted_mono ai h (setMem_append.mpr (Or.inr
          (setMem_iff.mpr ⟨vStr k, List.mem_singleton.mpr rfl, by
            simp [scalarEq]⟩)))
    · rcases ntcAccepted_cons_cases ai x xs acc with ⟨k1, v1, rfl⟩ | heq
      · rw [ntcAccepted_dict_eq] at h
        by_cases hc1 : ai.contains k1 = true
        · rw [if_pos hc1] at h
          exact ih h hm2 hc
        · rw [if_neg hc1] at h
          exact ih h hm2 hc
      · rw [heq] at h
        exact ih h hm2 hc

theorem ntcAccepted_mem_inv (ai : List String) {l : List Value} :
    ∀ {acc S : List Value} {s : String},
      ntcAccepted (some ai) acc l = .ok (vSet S) →
      setMem (vStr s) S = true →
      setMem (vStr s) acc = true ∨ ai.contains s = true := by
  induction l with
  | nil =>
    intro acc S s h hs
    injection h with h1
    injection h1 with h2
    rw [h2]
    exact Or.inl hs
  | cons x xs ih =>
    intro acc S s h hs
    rcases ntcAccepted_cons_cases ai x xs acc with ⟨k, v, rfl⟩ | heq
    · rw [ntcAccepted_dict_eq] at h
      by_cases hc : ai.contains k = true
      · rw [if_pos hc] at h
        by_cases hm : setMem (vStr k) acc = true
        · rw [if_pos hm] at h
          exact ih h hs
        · rw [if_neg hm] at h
          rcases ih h hs with h2 | h2
          · rcases setMem_append.mp h2 with h3 | h3
            · exact Or.inl h3
            · obtain ⟨y, hy, he⟩ := setMem_iff.mp h3
              rw [List.mem_singleton.mp hy] at he
              have : vStr k = vStr s := scalarEq_vStr he
              injection this with h4
              rw [← h4]
              exact Or.inr hc
          · exact Or.inr h2
      · rw [if_neg hc] at h
        exact ih h hs
    · rw [heq] at h
      exact ih h hs

theorem ls_const_empty (r : GRule)
    (h : ∀ l, applyRuleVal r (vList l) = .ok (vSet [])) : ListStable r := by
  intro items vi res hok hrel
  rw [h items] at hok
  injection hok with h1
  subst h1
  have hres := itemsRel_empty_vi hrel
  subst hres
  exact ⟨vSet [], h [], fun x hx => absurd hx (List.not_mem_nil x),
    fun k w hk => absurd hk (List.not_mem_nil _)⟩

theorem ls_anyR : ListStable .anyR := by
  intro items vi res hok hrel
  injection hok with h1
  subst h1
  refine ⟨vList res, rfl, ?_, ?_⟩
  · intro x hx hxt
    exact pyMem_vList_of_mem hx (pyEq_refl_of_terminal x hxt)
  · intro k w hk
    have hm := itemsRel_dict_mem hrel k w hk
    obtain ⟨y, hy, he⟩ := pyMem_vList_elim hm
    have hy2 : y = vStr k := pyEq_vStr he
    subst hy2
    have hkres : vStr k ∈ res := itemsRel_kept_scalar hrel (vStr k) hy rfl hm
    exact pyMem_vList_of_mem hkres (pyEq_refl_of_terminal _ rfl)

theorem tc_val (ty : PyType) (items : List Value) {S : List Value}
    (hall : items.all (fun x => isInstTy ty x) = true)
    (hS : pySetOfAux [] items = .ok S) :
    applyRuleVal (.terminalCollection ty none none) (vList items) =
      .ok (vSet S) := by
  show (if items.all (fun x => isInstTy ty x) = true then
      (pySetOfAux [] items >>= fun out => Except.ok (vSet out))
    else Except.ok (vSet [])) = _
  rw [if_pos hall, hS]
  rfl

theorem tc_empty (ty : PyType) (items : List Value)
    (hall : ¬ items.all (fun x => isInstTy ty x) = true) :
    applyRuleVal (.terminalCollection ty none none) (vList items) =
      .ok (vSet []) := by
  show (if items.all (fun x => isInstTy ty x) = true then
      (pySetOfAux [] items >>= fun out => Except.ok (vSet out))
    else Except.ok (vSet [])) = _
  rw [if_neg hall]

theorem ls_tc (ty : PyType) : ListStable (.terminalCollection ty none none) := by
  intro items vi res hok hrel
  by_cases hall : items.all (fun x => isInstTy ty x) = true
  · have hterm : ∀ x ∈ items, isTerminalV x = true := fun x hx =>
      isTerminalV_of_isInstTy (List.all_eq_true.mp hall x hx)
    obtain ⟨S, hS⟩ := pySetOfAux_ok_of_hashable []
      (fun x hx => isHashable_of_isTerminalV (hterm x hx))
    rw [tc_val ty items hall hS] at hok
    injection hok with h1
    subst h1
    have hkeep : ∀ x ∈ items, pyMem x (vSet S) = true := fun x hx => by
      rw [pyMem_vSet_terminal S (hterm x hx)]
      exact pySetOfAux_mem hS hx
    have hres : res = items := itemsRel_all_scalars_kept hrel hterm hkeep
    subst hres
    refine ⟨vSet S, tc_val ty res hall hS, fun x hx _ => hkeep x hx, ?_⟩
    intro k w hk
    have := List.all_eq_true.mp hall _ hk
    simp [isInstTy] at this
  · rw [tc_empty ty items hall] at hok
    injection hok with h1
    subst h1
    have hres := itemsRel_empty_vi hrel
    subst hres
    refine ⟨vSet [], ?_, fun x hx => absurd hx (List.not_mem_nil x),
      fun k w hk => absurd hk (List.not_mem_nil _)⟩
    show (if ([] : List Value).all (fun x => isInstTy ty x) = true then
        (pySetOfAux [] ([] : List Value) >>= fun out => Except.ok (vSet out))
      else Except.ok (vSet [])) = _
    rfl

theorem ntc_eq (ai : List String) (items : List Value) :
    applyRuleVal (.nonterminalCollection (some ai) none) (vList items) =
      (ntcAllKeys [] items >>= fun _ =>
        if items.all (fun x => isDictV x) = true then
          ntcAccepted (some ai) [] items
        else Except.ok (vSet [])) := rfl

theorem ls_ntc (ai : List String) :
    ListStable (.nonterminalCollection (some ai) none) := by
  intro items vi res hok hrel
  rw [ntc_eq] at hok
  cases hak : ntcAllKeys [] items with
  | error e => rw [hak] at hok; cases hok
  | ok allKeys =>
    rw [hak] at hok
    by_cases hd : items.all (fun x => isDictV x) = true
    · rw [if_pos hd] at hok
      have hdicts : ∀ x ∈ items, isDictV x = true := List.all_eq_true.mp hd
      have hshape := itemsRel_all_dicts hrel hdicts
      obtain ⟨S, hS⟩ := ntcAccepted_some_ok ai (l := items) []
      rw [hS] at hok
      injection hok with h1
      subst h1
      obtain ⟨allKeys2, hak2⟩ := ntcAllKeys_singletons hshape []
      have hd2 : res.all (fun x => isDictV x) = true :=
        List.all_eq_true.mpr (fun x hx => by
          obtain ⟨k, w, rfl⟩ := hshape x hx
          rfl)
      obtain ⟨S2, hS2⟩ := ntcAccepted_some_ok ai (l := res) []
      have hcont : ∀ k w, vDict [(k, w)] ∈ res → ai.contains k = true := by
        intro k w hk
        have hm := itemsRel_dict_mem hrel k w hk
        rw [show pyMem (vStr k) (vSet S) = setMem (vStr k) S from
          pyMem_vSet_terminal S rfl] at hm
        rcases ntcAccepted_mem_inv ai hS hm with h2 | h2
        · simp [setMem] at h2
        · exact h2
      refine ⟨vSet S2, ?_, ?_, ?_⟩
      · rw [ntc_eq, hak2, if_pos hd2]
        exact hS2
      · intro x hx hxt
        obtain ⟨k, w, rfl⟩ := hshape x hx
        cases hxt
      · intro k w hk
        rw [show pyMem (vStr k) (vSet S2) = setMem (vStr k) S2 from
          pyMem_vSet_terminal S2 rfl]
        exact ntcAccepted_mem ai hS2 hk (hcont k w hk)
    · rw [if_neg hd] at hok
      injection hok with h1
      subst h1
      have hres := itemsRel_empty_vi hrel
      subst hres
      exact ⟨vSet [], rfl, fun x hx => absurd hx (List.not_mem_nil x),
        fun k w hk => absurd hk (List.not_mem_nil _)⟩

theorem if_combo_eq (t : String) (items : List Value) :
    applyRuleVal (.combineR [.nOf 1 [t], .anyR]) (vList items) =
      ((pySetOfAux [] items >>= fun acc =>
        combineVals [] (vList items) acc) >>= fun out =>
          Except.ok (vSet out)) := rfl

theorem ls_if_combo (t : String) :
    ListStable (.combineR [.nOf 1 [t], .anyR]) := by
  intro items vi res hok hrel
  rw [if_combo_eq] at hok
  cases hS : pySetOfAux [] items with
  | error e => rw [hS] at hok; cases hok
  | ok S =>
    rw [hS] at hok
    injection hok with h1
    subst h1
    have hhash : ∀ x ∈ items, isHashable x = true := pySetOfAux_hashable hS
    have hnd : ∀ x ∈ items, isDictV x = false := fun x hx =>
      not_isDictV_of_isHashable (hhash x hx)
    have hnd_res : ∀ x ∈ res, isDictV x = false := itemsRel_no_dicts hrel hnd
    have hterm_res : ∀ x ∈ res, isTerminalV x = true := fun x hx =>
      isTerminalV_of_shape_not_dict (itemsRel_res_shape hrel x hx) (hnd_res x hx)
    obtain ⟨S2, hS2⟩ := pySetOfAux_ok_of_hashable []
      (fun x hx => isHashable_of_isTerminalV (hterm_res x hx))
    refine ⟨vSet S2, ?_, ?_, ?_⟩
    · rw [if_combo_eq, hS2]
      rfl
    · intro x hx hxt
      rw [pyMem_vSet_terminal S2 hxt]
      exact pySetOfAux_mem hS2 hx
    · intro k w hk
      have := hnd_res _ hk
      simp [isDictV] at this

theorem tc_tv_eq (items : List Value) :
    applyRuleVal (.combineR [.terminalCollection .tStr none none,
      .terminalVariable (some .tStr) none]) (vList items) =
      ((applyRuleVal (.terminalCollection .tStr none none) (vList items) >>=
        fun out => pySetUnionVal [] out >>= fun acc =>
          combineVals [.terminalVariable (some .tStr) none] (vList items) acc) >>=
            fun out => Except.ok (vSet out)) := rfl

theorem tc_tv_val (items : List Value) {S S1 : List Value}
    (hall : items.all (fun x => isInstTy .tStr x) = true)
    (hS : pySetOfAux [] items = .ok S) (hS1 : pySetOfAux [] S = .ok S1) :
    applyRuleVal (.combineR [.terminalCollection .tStr none none,
      .terminalVariable (some .tStr) none]) (vList items) = .ok (vSet S1) := by
  rw [tc_tv_eq, tc_val .tStr items hall hS]
  show ((pySetOfAux [] S >>= fun acc =>
    combineVals [.terminalVariable (some .tStr) none] (vList items) acc) >>=
      fun out => Except.ok (vSet out)) = _
  rw [hS1]
  rfl

theorem tc_tv_empty (items : List Value)
    (hall : ¬ items.all (fun x => isInstTy .tStr x) = true) :
    applyRuleVal (.combineR [.terminalCollection .tStr none none,
      .terminalVariable (some .tStr) none]) (vList items) = .ok (vSet []) := by
  rw [tc_tv_eq, tc_empty .tStr items hall]
  rfl

theorem ls_tc_tv :
    ListStable (.combineR [.terminalCollection .tStr none none,
      .terminalVariable (some .tStr) none]) := by
  intro items vi res hok hrel
  by_cases hall : items.all (fun x => isInstTy .tStr x) = true
  · have hterm : ∀ x ∈ items, isTerminalV x = true := fun x hx =>
      isTerminalV_of_isInstTy (List.all_eq_true.mp hall x hx)
    obtain ⟨S, hS⟩ := pySetOfAux_ok_of_hashable []
      (fun x hx => isHashable_of_isTerminalV (hterm x hx))
    have hSh : ∀ x ∈ S, isHashable x = true := by
      intro x hx
      rcases pySetOfAux_mem_src hS x hx with h2 | h2
      · cases h2
      · exact isHashable_of_isTerminalV (hterm x h2)
    obtain ⟨S1, hS1⟩ := pySetOfAux_ok_of_hashable [] hSh
    rw [tc_tv_val items hall hS hS1] at hok
    injection hok with h1
    subst h1
    have hkeep : ∀ x ∈ items, pyMem x (vSet S1) = true := by
      intro x hx
      rw [pyMem_vSet_terminal S1 (hterm x hx)]
      rw [pySetOfAux_char hS1 x]
      obtain ⟨y, hy, he⟩ := setMem_iff.mp (pySetOfAux_mem hS hx)
      exact Or.inr ⟨y, hy, he⟩
    have hres : res = items := itemsRel_all_scalars_kept hrel hterm hkeep
    subst hres
    refine ⟨vSet S1, tc_tv_val res hall hS hS1, fun x hx _ => hkeep x hx, ?_⟩
    intro k w hk
    have := List.all_eq_true.mp hall _ hk
    simp [isInstTy] at this
  · rw [tc_tv_empty items hall] at hok
    injection hok with h1
    subst h1
    have hres := itemsRel_empty_vi hrel
    subst hres
    refine ⟨vSet [], ?_, fun x hx => absurd hx (List.not_mem_nil x),
      fun k w hk => absurd hk (List.not_mem_nil _)⟩
    exact tc_tv_val [] rfl rfl rfl

theorem mem_dedupKeysAux {l : List String} :
    ∀ {seen : List String} {k : String},
      k ∈ dedupKeysAux seen l ↔ k ∈ l ∧ k ∉ seen := by
  induction l with
  | nil => intro seen k; simp [dedupKeysAux]
  | cons x xs ih =>
    intro seen k
    show k ∈ (if seen.contains x then dedupKeysAux seen xs
      else x :: dedupKeysAux (seen ++ [x]) xs) ↔ _
    by_cases hc : seen.contains x = true
    · rw [if_pos hc, ih]
      constructor
      · rintro ⟨h1, h2⟩
        exact ⟨List.mem_cons_of_mem x h1, h2⟩
      · rintro ⟨h1, h2⟩
        rcases List.mem_cons.mp h1 with rfl | h3
        · exact absurd ((scont_iff seen k).mp hc) h2
        · exact ⟨h3, h2⟩
    · rw [if_neg hc]
      have hxs : x ∉ seen := fun h => hc ((scont_iff seen x).mpr h)
      constructor
      · intro h1
        rcases List.mem_cons.mp h1 with rfl | h2
        · exact ⟨List.mem_cons_self _ _, hxs⟩
        · obtain ⟨h3, h4⟩ := ih.mp h2
          refine ⟨List.mem_cons_of_mem x h3, fun h5 => h4 ?_⟩
          exact List.mem_append.mpr (Or.inl h5)
      · rintro ⟨h1, h2⟩
        by_cases hke : k = x
        · subst hke
          exact List.mem_cons_self _ _
        · have h3 : k ∈ xs := by
            rcases List.mem_cons.mp h1 with h | h
            · exact absurd h hke
            · exact h
          refine List.mem_cons_of_mem x (ih.mpr ⟨h3, fun h4 => ?_⟩)
          rcases List.mem_append.mp h4 with h5 | h5
          · exact h2 h5
          · exact hke (List.mem_singleton.mp h5)

theorem mem_dedupKeys {l : List String} {k : String} :
    k ∈ dedupKeys l ↔ k ∈ l := by
  rw [show dedupKeys l = dedupKeysAux [] l from rfl, mem_dedupKeysAux]
  simp

theorem dedupKeysAux_nodup {l : List String} :
    ∀ {seen : List String}, (dedupKeysAux seen l).Nodup := by
  induction l with
  | nil => intro seen; exact List.nodup_nil
  | cons x xs ih =>
    intro seen
    show (if seen.contains x then dedupKeysAux seen xs
      else x :: dedupKeysAux (seen ++ [x]) xs).Nodup
    by_cases hc : seen.contains x = true
    · rw [if_pos hc]
      exact ih
    · rw [if_neg hc]
      refine List.nodup_cons.mpr ⟨fun h => ?_, ih⟩
      obtain ⟨h1, h2⟩ := mem_dedupKeysAux.mp h
      exact h2 (List.mem_append.mpr (Or.inr (List.mem_singleton.mpr rfl)))

theorem dedupKeys_nodup (l : List String) : (dedupKeys l).Nodup :=
  dedupKeysAux_nodup

theorem dedupKeysAux_eq_self {l : List String} :
    ∀ {seen : List String}, l.Nodup → (∀ k ∈ l, k ∉ seen) →
      dedupKeysAux seen l = l := by
  induction l with
  | nil => intro seen _ _; rfl
  | cons x xs ih =>
    intro seen hn hs
    show (if seen.contains x then dedupKeysAux seen xs
      else x :: dedupKeysAux (seen ++ [x]) xs) = x :: xs
    have hx : x ∉ seen := hs x (List.mem_cons_self _ _)
    rw [if_neg (fun h => hx ((scont_iff seen x).mp h))]
    obtain ⟨hx2, hn2⟩ := List.nodup_cons.mp hn
    rw [ih hn2 ?_]
    intro k hk h2
    rcases List.mem_append.mp h2 with h3 | h3
    · exact hs k (List.mem_cons_of_mem x hk) h3
    · rw [List.mem_singleton.mp h3] at hk
      exact hx2 hk

theorem dedupKeys_eq_self {l : List String} (hn : l.Nodup) :
    dedupKeys l = l :=
  dedupKeysAux_eq_self hn (fun k _ h => absurd h (List.not_mem_nil k))

theorem gLookup_mem {k : String} {g : List (String × GRule)} {r : GRule} :
    gLookup k g = some r → (k, r) ∈ g := by
  induction g with
  | nil => intro h; cases h
  | cons kv tl ih =>
    intro h
    obtain ⟨k2, r2⟩ := kv
    show (k, r) ∈ (k2, r2) :: tl
    rw [show gLookup k ((k2, r2) :: tl) =
      (if k2 = k then some r2 else gLookup k tl) from rfl] at h
    by_cases he : k2 = k
    · rw [if_pos he] at h
      injection h with h1
      subst he h1
      exact List.mem_cons_self _ _
    · rw [if_neg he] at h
      exact List.mem_cons_of_mem _ (ih h)

theorem validateEntries_keys (g : List (String × GRule)) :
    ∀ (entries : List (String × Value)) (path : String)
      (accepted : List String) (res : List (String × Value)),
      (∀ a ∈ accepted, a ∈ entries.map Prod.fst) →
      validateEntries g entries path accepted = .ok res →
      (res.map Prod.fst).Nodup ∧
        ∀ k, k ∈ res.map Prod.fst ↔ k ∈ accepted := by
  intro entries
  induction entries with
  | nil =>
    intro path accepted res hacc hok
    injection hok with h1
    subst h1
    refine ⟨List.nodup_nil, fun k => ?_⟩
    simp only [List.map_nil]
    constructor
    · intro hk
      cases hk
    · intro hk
      exact absurd (hacc k hk) (by simp)
  | cons kv tl ih =>
    intro path accepted res hacc hok
    obtain ⟨k, v⟩ := kv
    rw [show validateEntries g ((k, v) :: tl) path accepted =
      (if accepted.contains k then do
        let w ← validateAux g v (path ++ "." ++ k)
        let rest ← validateEntries g tl path (accepted.filter (fun a => a ≠ k))
        Except.ok ((k, w) :: rest)
      else validateEntries g tl path accepted) from rfl] at hok
    by_cases hc : accepted.contains k = true
    · rw [if_pos hc] at hok
      have hkacc : k ∈ accepted := (scont_iff accepted k).mp hc
      cases hw : validateAux g v (path ++ "." ++ k) with
      | error e => rw [hw] at hok; cases hok
      | ok w =>
        rw [hw] at hok
        cases hrest : validateEntries g tl path
            (accepted.filter (fun a => a ≠ k)) with
        | error e => rw [hrest] at hok; cases hok
        | ok rest =>
          rw [hrest] at hok
          injection hok with h1
          subst h1
          have hacc2 : ∀ a ∈ accepted.filter (fun a => a ≠ k),
              a ∈ tl.map Prod.fst := by
            intro a ha
            rw [List.mem_filter] at ha
            obtain ⟨ha1, ha2⟩ := ha
            have := hacc a ha1
            rw [List.map_cons, List.mem_cons] at this
            rcases this with h2 | h2
            · exact absurd h2 (by simpa using ha2)
            · exact h2
          obtain ⟨hnod, hiff⟩ := ih path _ rest hacc2 hrest
          constructor
          · rw [List.map_cons]
            refine List.nodup_cons.mpr ⟨fun h2 => ?_, hnod⟩
            have := (hiff k).mp h2
            rw [List.mem_filter] at this
            simp at this
          · intro k2
            rw [List.map_cons, List.mem_cons, hiff k2, List.mem_filter]
            constructor
            · rintro (rfl | ⟨h2, _⟩)
              · exact hkacc
              · exact h2
            · intro h2
              by_cases he : k2 = k
              · exact Or.inl he
              · exact Or.inr ⟨h2, by simpa using he⟩
    · rw [if_neg hc] at hok
      have hknacc : k ∉ accepted := fun h => hc ((scont_iff accepted k).mpr h)
      refine ih path accepted res ?_ hok
      intro a ha
      have := hacc a ha
      rw [List.map_cons, List.mem_cons] at this
      rcases this with h2 | h2
      · rw [h2] at ha
        exact absurd ha hknacc
      · exact h2

theorem validateEntries_values (g : List (String × GRule)) :
    ∀ (entries : List (String × Value)) (path : String)
      (accepted : List String) (res : List (String × Value)),
      validateEntries g entries path accepted = .ok res →
      ∀ kw ∈ res, ∃ v, (kw.1, v) ∈ entries ∧
        validateAux g v (path ++ "." ++ kw.1) = .ok kw.2 := by
  intro entries
  induction entries with
  | nil =>
    intro path accepted res hok kw hkw
    injection hok with h1
    subst h1
    cases hkw
  | cons kv tl ih =>
    intro path accepted res hok kw hkw
    obtain ⟨k, v⟩ := kv
    rw [show validateEntries g ((k, v) :: tl) path accepted =
      (if accepted.contains k then do
        let w ← validateAux g v (path ++ "." ++ k)
        let rest ← validateEntries g tl path (accepted.filter (fun a => a ≠ k))
        Except.ok ((k, w) :: rest)
      else validateEntries g tl path accepted) from rfl] at hok
    by_cases hc : accepted.contains k = true
    · rw [if_pos hc] at hok
      cases hw : validateAux g v (path ++ "." ++ k) with
      | error e => rw [hw] at hok; cases hok
      | ok w =>
        rw [hw] at hok
        cases hrest : validateEntries g tl path
            (accepted.filter (fun a => a ≠ k)) with
        | error e => rw [hrest] at hok; cases hok
        | ok rest =>
          rw [hrest] at hok
          injection hok with h1
          subst h1
          rcases List.mem_cons.mp hkw with rfl | hkw2
          · exact ⟨v, List.mem_cons_self _ _, hw⟩
          · obtain ⟨v2, hv1, hv2⟩ := ih path _ rest hrest kw hkw2
            exact ⟨v2, List.mem_cons_of_mem _ hv1, hv2⟩
    · rw [if_neg hc] at hok
      obtain ⟨v2, hv1, hv2⟩ := ih path accepted res hok kw hkw
      exact ⟨v2, List.mem_cons_of_mem _ hv1, hv2⟩

theorem validateEntries_all_accepted (g : List (String × GRule)) :
    ∀ (entries : List (String × Value)) (path : String)
      (accepted : List String),
      (entries.map Prod.fst).Nodup →
      (∀ k ∈ entries.map Prod.fst, k ∈ accepted) →
      (∀ kw ∈ entries, validateAux g kw.2 (path ++ "." ++ kw.1) = .ok kw.2) →
      validateEntries g entries path accepted = .ok entries := by
  intro entries
  induction entries with
  | nil => intro path accepted _ _ _; rfl
  | cons kv tl ih =>
    intro path accepted hnod hacc hval
    obtain ⟨k, v⟩ := kv
    rw [List.map_cons] at hnod hacc
    obtain ⟨hk1, hnod2⟩ := List.nodup_cons.mp hnod
    have hkacc : k ∈ accepted := hacc k (List.mem_cons_self _ _)
    show (if accepted.contains k then do
        let w ← validateAux g v (path ++ "." ++ k)
        let rest ← validateEntries g tl path (accepted.filter (fun a => a ≠ k))
        Except.ok ((k, w) :: rest)
      else validateEntries g tl path accepted) = Except.ok ((k, v) :: tl)
    have hrest : validateEntries g tl path (accepted.filter (fun a => a ≠ k)) =
        Except.ok tl := by
      refine ih path (accepted.filter (fun a => a ≠ k)) hnod2 ?_ ?_
      · intro k2 hk2
        rw [List.mem_filter]
        refine ⟨hacc k2 (List.mem_cons_of_mem _ hk2), ?_⟩
        have h2 : k2 ≠ k := fun he => hk1 (he ▸ hk2)
        simpa using h2
      · intro kw hkw
        exact hval kw (List.mem_cons_of_mem _ hkw)
    have hv : validateAux g v (path ++ "." ++ k) = Except.ok v :=
      hval (k, v) (List.mem_cons_self _ _)
    rw [if_pos ((scont_iff accepted k).mpr hkacc), hv, hrest]
    rfl

theorem validateAux_vNull (g : List (String × GRule)) (path : String) :
    validateAux g vNull path = .ok vNull := by
  simp only [validateAux]
  cases loadGrammarRule g path <;> rfl

theorem validateScalar_stable (g : List (String × GRule)) (path : String)
    (r : GRule) (hrule : loadGrammarRule g path = some r)
    (x w : Value) (hterm : isTerminalV x = true)
    (hok : validateScalar r x = .ok w) :
    validateAux g w path = .ok w := by
  have hok1 : (applyRuleVal r x >>= fun a =>
      Except.ok (if pyTruthy a then x else vNull)) = Except.ok w := hok
  cases hA : applyRuleVal r x with
  | error e => rw [hA] at hok1; cases hok1
  | ok a =>
    rw [hA] at hok1
    have hok2 : Except.ok (if pyTruthy a then x else vNull) = Except.ok w := hok1
    injection hok2 with h1
    by_cases ht : pyTruthy a = true
    · rw [if_pos ht] at h1
      subst h1
      have hres : validateScalar r x = .ok x := by
        show (applyRuleVal r x >>= fun a =>
          Except.ok (if pyTruthy a then x else vNull)) = _
        rw [hA]
        show Except.ok (if pyTruthy a then x else vNull) = _
        rw [if_pos ht]
      cases x with
      | vBool b =>
        simp only [validateAux]
        rw [hrule]
        exact hres
      | vInt n =>
        simp only [validateAux]
        rw [hrule]
        exact hres
      | vFloat q =>
        simp only [validateAux]
        rw [hrule]
        exact hres
      | vStr s =>
        simp only [validateAux]
        rw [hrule]
        exact hres
      | vNull => simp [isTerminalV] at hterm
      | vList l => simp [isTerminalV] at hterm
      | vDict es => simp [isTerminalV] at hterm
      | vSet l => simp [isTerminalV] at hterm
    · rw [if_neg ht] at h1
      subst h1
      exact validateAux_vNull g path

theorem validateAux_stable (g : List (String × GRule))
    (hg : ∀ kr ∈ g, KeyStable kr.2 ∧ ListStable kr.2) :
    ∀ n data path w, vsize data ≤ n →
      validateAux g data path = .ok w → validateAux g w path = .ok w := by
  intro n
  induction n with
  | zero =>
    intro data path w hle hok
    have h1 := vsize_pos data
    omega
  | succ n ih =>
    intro data path w hle hok
    simp only [validateAux] at hok
    cases hrule : loadGrammarRule g path with
    | none =>
      rw [hrule] at hok
      have hok2 : Except.ok vNull = Except.ok w := hok
      injection hok2 with h1
      subst h1
      exact validateAux_vNull g path
    | some r =>
      rw [hrule] at hok
      have hrOK : KeyStable r ∧ ListStable r := by
        have h1 : ∃ k, gLookup k g = some r := by
          unfold loadGrammarRule at hrule
          cases hk : loadGrammarKey (g.map Prod.fst) path with
          | none => rw [hk] at hrule; cases hrule
          | some k => rw [hk] at hrule; exact ⟨k, hrule⟩
        obtain ⟨k, hk⟩ := h1
        exact hg (k, r) (gLookup_mem hk)
      cases data with
      | vNull =>
        have hok2 : Except.ok vNull = Except.ok w := hok
        injection hok2 with h1
        subst h1
        exact validateAux_vNull g path
      | vSet l =>
        have hok2 : Except.ok vNull = Except.ok w := hok
        injection hok2 with h1
        subst h1
        exact validateAux_vNull g path
      | vBool b => exact validateScalar_stable g path r hrule (vBool b) w rfl hok
      | vInt m => exact validateScalar_stable g path r hrule (vInt m) w rfl hok
      | vFloat q => exact validateScalar_stable g path r hrule (vFloat q) w rfl hok
      | vStr s => exact validateScalar_stable g path r hrule (vStr s) w rfl hok
      | vDict entries =>
        have hok2 : (do
            let accepted ← applyRuleKeys r (dedupKeys (entries.map Prod.fst))
            let res ← validateEntries g entries path accepted
            Except.ok (vDict res)) = Except.ok w := hok
        cases hA : applyRuleKeys r (dedupKeys (entries.map Prod.fst)) with
        | error e => rw [hA] at hok2; cases hok2
        | ok A =>
          rw [hA] at hok2
          have hok2b : (validateEntries g entries path A >>= fun res =>
              Except.ok (vDict res)) = Except.ok w := hok2
          cases hR : validateEntries g entries path A with
          | error e => rw [hR] at hok2b; cases hok2b
          | ok res =>
            rw [hR] at hok2b
            have hok3 : Except.ok (vDict res) = Except.ok w := hok2b
            injection hok3 with h1
            subst h1
            have hKnodup := dedupKeys_nodup (entries.map Prod.fst)
            obtain ⟨hAsub, hsecond⟩ := hrOK.1 _ A hKnodup hA
            have haccmem : ∀ a ∈ A, a ∈ entries.map Prod.fst := fun a ha =>
              mem_dedupKeys.mp (hAsub a ha)
            obtain ⟨hresnod, hresiff⟩ :=
              validateEntries_keys g entries path A res haccmem hR
            obtain ⟨A2, hA2, hK2sub⟩ :=
              hsecond (res.map Prod.fst) hresnod hresiff
            have hvals : ∀ kw ∈ res,
                validateAux g kw.2 (path ++ "." ++ kw.1) = .ok kw.2 := by
              intro kw hkw
              obtain ⟨v, hv1, hv2⟩ :=
                validateEntries_values g entries path A res hR kw hkw
              have hlt : vsize v < vsize (vDict entries) := vsize_dict_value hv1
              exact ih v (path ++ "." ++ kw.1) kw.2 (by omega) hv2
            have hVE := validateEntries_all_accepted g res path A2 hresnod
              (fun k hk => hK2sub k hk) hvals
            simp only [validateAux]
            rw [hrule]
            show (do
              let accepted ← applyRuleKeys r (dedupKeys (res.map Prod.fst))
              let res2 ← validateEntries g res path accepted
              Except.ok (vDict res2)) = Except.ok (vDict res)
            rw [dedupKeys_eq_self hresnod, hA2]
            show validateEntries g res path A2 >>=
              (fun res2 => Except.ok (vDict res2)) = Except.ok (vDict res)
            rw [hVE]
            rfl
      | vList items =>
        have hok2 : (do
            let vi ← applyRuleVal r (vList items)
            let res ← validateItems g items path vi
            Except.ok (vList res)) = Except.ok w := hok
        cases hvi : applyRuleVal r (vList items) with
        | error e => rw [hvi] at hok2; cases hok2
        | ok vi =>
          rw [hvi] at hok2
          have hok2b : (validateItems g items path vi >>= fun res =>
              Except.ok (vList res)) = Except.ok w := hok2
          cases hres : validateItems g items path vi with
          | error e => rw [hres] at hok2b; cases hok2b
          | ok res =>
            rw [hres] at hok2b
            have hok3 : Except.ok (vList res) = Except.ok w := hok2b
            injection hok3 with h1
            subst h1
            have hrel := itemsRel_of_validateItems hres
            obtain ⟨vi2, hvi2, hks, hkd⟩ := hrOK.2 items vi res hvi hrel
            have hvals : ∀ k w2, vDict [(k, w2)] ∈ res →
                validateAux g w2 (path ++ "." ++ k) = .ok w2 := by
              intro k w2 hk
              obtain ⟨v, hv1, hv2⟩ := validateItems_dict_values hres k w2 hk
              have hlt : vsize v < vsize (vList items) := vsize_list_dict_value hv1
              exact ih v (path ++ "." ++ k) w2 (by omega) hv2
            have hVI := validateItems_all_kept g res path vi2
              (itemsRel_res_shape hrel) hks hkd hvals
            simp only [validateAux]
            rw [hrule]
            show (do
              let vi3 ← applyRuleVal r (vList res)
              let res2 ← validateItems g res path vi3
              Except.ok (vList res2)) = Except.ok (vList res)
            rw [hvi2]
            show validateItems g res path vi2 >>=
              (fun res2 => Except.ok (vList res2)) = Except.ok (vList res)
            rw [hVI]
            rfl

theorem recipeRulesOK : ∀ kr ∈ RECIPE_STRUCTURE, KeyStable kr.2 ∧ ListStable kr.2 := by
  intro kr hkr
  simp only [RECIPE_STRUCTURE, List.mem_cons, List.not_mem_nil, or_false] at hkr
  rcases hkr with rfl | rfl | rfl | rfl | rfl | rfl | rfl | rfl | rfl | rfl |
    rfl | rfl | rfl | rfl | rfl | rfl | rfl | rfl | rfl | rfl |
    rfl | rfl | rfl | rfl | rfl | rfl | rfl | rfl | rfl | rfl |
    rfl | rfl | rfl | rfl | rfl | rfl | rfl | rfl | rfl | rfl |
    rfl | rfl | rfl | rfl | rfl
  · exact ⟨ks_nOf _ _, ls_const_empty _ (fun l => rfl)⟩
  · exact ⟨ks_tvNone _, ls_const_empty _ (fun l => rfl)⟩
  · exact ⟨ks_combo_nOf_anyOf _ _ _ (by decide), ls_const_empty _ (fun l => rfl)⟩
  · exact ⟨ks_anyOf _, ls_const_empty _ (fun l => rfl)⟩
  · exact ⟨ks_atLeastNOf _ _, ls_const_empty _ (fun l => rfl)⟩
  · exact ⟨ks_atLeastNOf _ _, ls_const_empty _ (fun l => rfl)⟩
  · exact ⟨ks_atLeastNOf _ _, ls_const_empty _ (fun l => rfl)⟩
  · exact ⟨ks_atLeastNOf _ _, ls_const_empty _ (fun l => rfl)⟩
  · exact ⟨ks_atLeastNOf _ _, ls_const_empty _ (fun l => rfl)⟩
  · exact ⟨ks_atLeastNOf _ _, ls_const_empty _ (fun l => rfl)⟩
  · exact ⟨ks_atLeastNOf _ _, ls_const_empty _ (fun l => rfl)⟩
  · exact ⟨ks_atLeastNOf _ _, ls_const_empty _ (fun l => rfl)⟩
  · exact ⟨ks_atLeastNOf _ _, ls_const_empty _ (fun l => rfl)⟩
  · exact ⟨ks_atLeastNOf _ _, ls_const_empty _ (fun l => rfl)⟩
  · exact ⟨ks_atLeastNOf _ _, ls_const_empty _ (fun l => rfl)⟩
  · exact ⟨ks_atLeastNOf _ _, ls_const_empty _ (fun l => rfl)⟩
  · exact ⟨ks_atLeastNOf _ _, ls_const_empty _ (fun l => rfl)⟩
  · exact ⟨ks_tvSome _ _, ls_const_empty _ (fun l => rfl)⟩
  · exact ⟨ks_atLeastNOf _ _, ls_const_empty _ (fun l => rfl)⟩
  · exact ⟨ks_anyR, ls_anyR⟩
  · exact ⟨ks_combo_nOf_anyOf _ _ _ (by decide), ls_const_empty _ (fun l => rfl)⟩
  · exact ⟨ks_tvSome _ _, ls_const_empty _ (fun l => rfl)⟩
  · exact ⟨ks_tc _ _ _, ls_tc _⟩
  · exact ⟨ks_tvSome _ _, ls_const_empty _ (fun l => rfl)⟩
  · exact ⟨ks_tvNone _, ls_const_empty _ (fun l => rfl)⟩
  · exact ⟨ks_combo_two_nOf1 _ _, ls_const_empty _ (fun l => rfl)⟩
  · exact ⟨ks_atLeastNOf _ _, ls_const_empty _ (fun l => rfl)⟩
  · exact ⟨ks_combo_three_nOf1 _ _ _, ls_const_empty _ (fun l => rfl)⟩
  · exact ⟨ks_ntc _ _, ls_ntc _⟩
  · exact ⟨ks_combo_nOf1_anyR _, ls_if_combo _⟩
  · exact ⟨ks_combo_two_nOf1 _ _, ls_const_empty _ (fun l => rfl)⟩
  · exact ⟨ks_ntc _ _, ls_ntc _⟩
  · exact ⟨ks_nOf _ _, ls_const_empty _ (fun l => rfl)⟩
  · exact ⟨ks_tvSome _ _, ls_const_empty _ (fun l => rfl)⟩
  · exact ⟨ks_tvSome _ _, ls_const_empty _ (fun l => rfl)⟩
  · exact ⟨ks_tvNone _, ls_const_empty _ (fun l => rfl)⟩
  · exact ⟨ks_tvNone _, ls_const_empty _ (fun l => rfl)⟩
  · exact ⟨ks_combo_tc_tv, ls_tc_tv⟩
  · exact ⟨ks_combo_tc_tv, ls_tc_tv⟩
  · exact ⟨ks_anyOf _, ls_const_empty _ (fun l => rfl)⟩
  · exact ⟨ks_tvSome _ _, ls_const_empty _ (fun l => rfl)⟩
  · exact ⟨ks_tvNone _, ls_const_empty _ (fun l => rfl)⟩
  · exact ⟨ks_tvSome _ _, ls_const_empty _ (fun l => rfl)⟩
  · exact ⟨ks_anyR, ls_anyR⟩
  · exact ⟨ks_tvNone _, ls_const_empty _ (fun l => rfl)⟩

/-- C4: validation against the recipe schema is idempotent — for every
document `D`, running `validate` again on the result of `validate(D)`
reproduces that result exactly (and on a failing document the composition
fails identically), i.e. `validate(validate(D)) == validate(D)`. -/
theorem C4_validate_idempotent (D : Value) :
    (recipeValidate D >>= fun w => recipeValidate w) = recipeValidate D := by
  cases h : recipeValidate D with
  | error e => rfl
  | ok w =>
    show recipeValidate w = Except.ok w
    exact validateAux_stable RECIPE_STRUCTURE recipeRulesOK (vsize D) D "/" w
      le_rfl h
